import Mathlib

namespace Typus

/-!
# Verification of the typus grammar generator

Shallow embedding of the typus repository (grammar IR, grammar container with
epsilon-elimination, the Lark backend compiler, the type-graph reflector and
the domain generator), together with theorems settling the specification
claims against the code.

Sources embedded:
* `src/typus/core.py` (Symbol IR; the `Epsilon` variant and the `+`/`|`
  operators are imported by the rest of the package but missing from the
  sources, so they are modelled from the spec where noted),
* `src/typus/grammar.py` (`Grammar` container, combinators, `cleanup`),
* `src/typus/backends/lark.py` (`LarkCompiler`),
* `src/typus/domain/reflector.py` (`Reflector`),
* `src/typus/domain/generator.py` (`DomainGenerator`).
-/

/-- The Symbol IR of `src/typus/core.py`: `Terminal{value, is_regex}`,
`NonTerminal{name}`, `Sequence{items}`, `Choice{options}`, plus the `Epsilon`
variant.  `Epsilon` is imported throughout the package from `typus.core` but
its class body is missing from the sources; Modelled from the spec:
"`Epsilon` — empty derivation". -/
inductive Symbol where
  | terminal (value : String) (isRegex : Bool)
  | nonTerminal (name : String)
  | sequence (items : List Symbol)
  | choice (options : List Symbol)
  | epsilon
deriving Repr

/-- `isinstance(x, Epsilon)` check used by `grammar.py` and `lark.py`. -/
def Symbol.isEpsilonNode : Symbol → Bool
  | .epsilon => true
  | _ => false

mutual

/-- Structural equality on symbols (so concrete grammars can be compared). -/
def Symbol.beq : Symbol → Symbol → Bool
  | .terminal v r, .terminal w s => v == w && r == s
  | .nonTerminal n, .nonTerminal m => n == m
  | .sequence xs, .sequence ys => Symbol.beqList xs ys
  | .choice xs, .choice ys => Symbol.beqList xs ys
  | .epsilon, .epsilon => true
  | _, _ => false

/-- Pointwise `Symbol.beq` on lists of symbols. -/
def Symbol.beqList : List Symbol → List Symbol → Bool
  | [], [] => true
  | x :: xs, y :: ys => Symbol.beq x y && Symbol.beqList xs ys
  | _, _ => false

end

theorem Symbol.beqList_iff (xs : List Symbol)
    (ih : ∀ x ∈ xs, ∀ b, Symbol.beq x b = true ↔ x = b) :
    ∀ ys, Symbol.beqList xs ys = true ↔ xs = ys := by
  induction xs with
  | nil => intro ys; cases ys <;> simp [Symbol.beqList]
  | cons x xs ihx =>
    intro ys
    cases ys with
    | nil => simp [Symbol.beqList]
    | cons y ys =>
      simp only [Symbol.beqList, Bool.and_eq_true]
      rw [ih x (by simp) y, ihx (fun z hz => ih z (by simp [hz])) ys]
      simp

/-- Size-based strong induction for `Symbol` (needed because the constructors
carry nested `List Symbol` children). -/
theorem Symbol.strongInd (P : Symbol → Prop)
    (ht : ∀ v r, P (.terminal v r))
    (hn : ∀ n, P (.nonTerminal n))
    (he : P .epsilon)
    (hs : ∀ items, (∀ x ∈ items, P x) → P (.sequence items))
    (hc : ∀ opts, (∀ x ∈ opts, P x) → P (.choice opts)) :
    ∀ s, P s := by
  have key : ∀ n : Nat, ∀ s : Symbol, sizeOf s ≤ n → P s := by
    intro n
    induction n with
    | zero =>
      intro s hsz
      cases s <;> simp_arith at hsz
    | succ n ih =>
      intro s hsz
      cases s with
      | terminal v r => exact ht v r
      | nonTerminal m => exact hn m
      | epsilon => exact he
      | sequence items =>
        refine hs items (fun x hx => ih x ?_)
        have hlt := List.sizeOf_lt_of_mem hx
        simp_arith at hsz
        omega
      | choice opts =>
        refine hc opts (fun x hx => ih x ?_)
        have hlt := List.sizeOf_lt_of_mem hx
        simp_arith at hsz
        omega
  exact fun s => key (sizeOf s) s (Nat.le_refl _)

theorem Symbol.beq_iff : ∀ a b : Symbol, Symbol.beq a b = true ↔ a = b := by
  intro a
  induction a using Symbol.strongInd with
  | ht v r => intro b; cases b <;> simp [Symbol.beq]
  | hn n => intro b; cases b <;> simp [Symbol.beq]
  | he => intro b; cases b <;> simp [Symbol.beq]
  | hs items ih =>
    intro b
    cases b with
    | sequence ys =>
      simp only [Symbol.beq]
      rw [Symbol.beqList_iff items ih ys]
      simp
    | terminal v r => simp [Symbol.beq]
    | nonTerminal m => simp [Symbol.beq]
    | choice ys => simp [Symbol.beq]
    | epsilon => simp [Symbol.beq]
  | hc opts ih =>
    intro b
    cases b with
    | choice ys =>
      simp only [Symbol.beq]
      rw [Symbol.beqList_iff opts ih ys]
      simp
    | terminal v r => simp [Symbol.beq]
    | nonTerminal m => simp [Symbol.beq]
    | sequence ys => simp [Symbol.beq]
    | epsilon => simp [Symbol.beq]

instance : DecidableEq Symbol :=
  fun a b => decidable_of_iff _ (Symbol.beq_iff a b)

/-- Python's `str.startswith("_")`, `str.lower()` etc. are used directly via
`String`; assoc lists model Python `dict`s (insertion ordered, unique keys).
`dictInsert` models `d[k] = v`: replace the value of an existing key in
place, otherwise append at the end. -/
def dictInsert : List (String × Symbol) → String → Symbol → List (String × Symbol)
  | [], k, v => [(k, v)]
  | (k', v') :: rest, k, v =>
      if k' = k then (k, v) :: rest else (k', v') :: dictInsert rest k v

/-- `k in d` for the assoc-list model of a Python dict. -/
def dictHasKey (d : List (String × Symbol)) (k : String) : Bool :=
  d.any (fun p => p.1 = k)

/-- `d[k]` lookup (first matching key). -/
def dictGet (d : List (String × Symbol)) (k : String) : Option Symbol :=
  match d.find? (fun p => p.1 = k) with
  | some p => some p.2
  | none => none

theorem dictInsert_self (d : List (String × Symbol)) (k : String) (v : Symbol)
    (h : d.find? (fun p => p.1 = k) = some (k, v)) : dictInsert d k v = d := by
  induction d with
  | nil => simp [List.find?] at h
  | cons p rest ih =>
    by_cases hk : p.1 = k
    · rw [List.find?_cons_of_pos _ (by simpa using hk)] at h
      cases h
      simp [dictInsert]
    · rw [List.find?_cons_of_neg _ (by simpa using hk)] at h
      simp only [dictInsert]
      rw [if_neg hk]
      rw [ih h]

theorem dictInsert_append_of_not_mem (d : List (String × Symbol)) (k : String)
    (v : Symbol) (h : dictHasKey d k = false) : dictInsert d k v = d ++ [(k, v)] := by
  induction d with
  | nil => simp [dictInsert]
  | cons p rest ih =>
    obtain ⟨k0, v0⟩ := p
    simp only [dictHasKey, List.any_cons, Bool.or_eq_false_iff] at h
    simp only [dictInsert]
    rw [if_neg (by simpa using h.1)]
    rw [ih h.2]
    simp

/-- Modelled from the spec: `Symbol.__add__` (used as `symbol + sep + ref` in
`grammar.py` and `head_rule + strict_chain_ref` in `generator.py`) is imported
from `typus.core` but missing from the sources.  Per the spec, `some(X, sep=S)`
produces a branch that is "structurally `Sequence(X, S, self-reference)`", so
`+` concatenates into a flat `Sequence`, splicing `Sequence` operands and
dropping `Epsilon` operands (the spec's convention for `Epsilon` items in
`Sequence`s). -/
def Symbol.addItems : Symbol → List Symbol
  | .sequence xs => xs
  | .epsilon => []
  | s => [s]

/-- `a + b` on symbols; see `Symbol.addItems`. -/
def Symbol.add (a b : Symbol) : Symbol :=
  .sequence (a.addItems ++ b.addItems)

/-- Modelled from the spec: `Symbol.__or__` (used as `Terminal("True") |
Terminal("False")` in `languages/python.py`), missing from the sources; `|`
builds the `Choice` of its operands, splicing `Choice` operands. -/
def Symbol.orItems : Symbol → List Symbol
  | .choice xs => xs
  | s => [s]

/-- `a | b` on symbols; see `Symbol.orItems`. -/
def Symbol.orSym (a b : Symbol) : Symbol :=
  .choice (a.orItems ++ b.orItems)

/-- The `Grammar` container of `src/typus/grammar.py`: just the ordered
`rules` dict (rule definition via `__setattr__` writes into it; `root` is an
ordinary rule name). -/
structure Grammar where
  rules : List (String × Symbol)
deriving DecidableEq, Repr

/-- Errors that abort a generation run: `ruleExists` models the `ValueError`
raised by `Grammar.some` on a name collision; `fuelOut` marks exhaustion of
the fuel that makes the embedded recursion total (the Python code has no such
bound — the termination theorems show sufficient fuel always exists). -/
inductive GenError where
  | fuelOut
  | ruleExists (name : String)
deriving DecidableEq, Repr

/-- `Grammar._sanitize`: replace non-alphanumeric characters by `_`, collapse
runs of `_`, strip leading/trailing `_`. -/
def sanitizeCollapse : List Char → List Char
  | [] => []
  | [c] => [c]
  | c :: d :: rest =>
      if c = '_' ∧ d = '_' then sanitizeCollapse (d :: rest)
      else c :: sanitizeCollapse (d :: rest)

/-- Strip `_` from both ends (Python `str.strip("_")`). -/
def stripUnderscore (cs : List Char) : List Char :=
  ((cs.dropWhile (fun c => c = '_')).reverse.dropWhile (fun c => c = '_')).reverse

/-- `Grammar._sanitize` (grammar.py lines 60-66). -/
def Grammar.sanitize (text : String) : String :=
  String.mk (stripUnderscore (sanitizeCollapse
    (text.data.map (fun c => if c.isAlphanum then c else '_'))))

mutual

/-- `Grammar._get_name` (grammar.py lines 68-80). -/
def Grammar.getName : Symbol → String
  | .nonTerminal n => n
  | .terminal v r => if r then "regex" else Grammar.sanitize v
  | .choice opts => String.intercalate "_or_" (Grammar.getNameList opts)
  | .sequence _ => "item"
  | .epsilon => "item"

/-- `_get_name` mapped over a `Choice`'s options. -/
def Grammar.getNameList : List Symbol → List String
  | [] => []
  | s :: rest => Grammar.getName s :: Grammar.getNameList rest

end

/-- `Grammar.maybe`: `Choice(symbol, Epsilon())`. -/
def Grammar.maybe (symbol : Symbol) : Symbol :=
  .choice [symbol, .epsilon]

/-- `Grammar.regex`: a `Terminal` flagged as regex. -/
def Grammar.regexTerm (pattern : String) : Symbol :=
  .terminal pattern true

/-- `Grammar.some` (grammar.py lines 82-125): derives a rule name, raises
`ValueError` if it already exists, defines the right-recursive rule
`R ::= symbol | symbol [sep] R` and returns the `NonTerminal` reference. -/
def Grammar.someRule (rules : List (String × Symbol)) (symbol : Symbol)
    (sep : Option Symbol) (name : Option String) :
    Except GenError (List (String × Symbol) × Symbol) :=
  let name :=
    match name with
    | some n => n
    | none =>
        let base := "some_" ++ Grammar.getName symbol
        match sep with
        | some s =>
            let sepName := Grammar.getName s
            if sepName ≠ "" then base ++ "_sep_" ++ sepName else base
        | none => base
  if dictHasKey rules name then .error (.ruleExists name)
  else
    let ref := Symbol.nonTerminal name
    let body :=
      match sep with
      | some s => Symbol.choice [symbol, (symbol.add s).add ref]
      | none => Symbol.choice [symbol, symbol.add ref]
    .ok (dictInsert rules name body, ref)

/-- `Grammar.some` called with a bare string argument: grammar.py lines 97-98
convert it to a `Terminal` (`if isinstance(symbol, str): symbol =
Terminal(symbol)`).  This is the call shape used by
`DomainGenerator._build_rule_body`, which passes the chain *rule name*. -/
def Grammar.someStr (rules : List (String × Symbol)) (s : String) :
    Except GenError (List (String × Symbol) × Symbol) :=
  Grammar.someRule rules (Symbol.terminal s false) none none

/-- `Grammar.any` = `maybe(some(symbol, sep, name))`, for a bare-string
argument. -/
def Grammar.anyStr (rules : List (String × Symbol)) (s : String) :
    Except GenError (List (String × Symbol) × Symbol) :=
  match Grammar.someStr rules s with
  | .error e => .error e
  | .ok (rules', ref) => .ok (rules', Grammar.maybe ref)

mutual

/-- `Grammar._is_symbol_epsilon` (grammar.py lines 210-228): `Epsilon` is
epsilon; a `NonTerminal` is epsilon iff its name is in the epsilon set; a
`Sequence`/`Choice` is epsilon iff it has no children or all children are. -/
def Grammar.isSymbolEpsilon (eps : List String) : Symbol → Bool
  | .epsilon => true
  | .nonTerminal n => eps.contains n
  | .sequence items => items.isEmpty || Grammar.allEpsilon eps items
  | .choice opts => opts.isEmpty || Grammar.allEpsilon eps opts
  | .terminal _ _ => false

/-- `all(self._is_symbol_epsilon(i, eps_set) for i in ...)`. -/
def Grammar.allEpsilon (eps : List String) : List Symbol → Bool
  | [] => true
  | s :: rest => Grammar.isSymbolEpsilon eps s && Grammar.allEpsilon eps rest

end

mutual

/-- `Grammar._prune_symbol` (grammar.py lines 230-271): replace references to
epsilon rules by `Epsilon`, drop `Epsilon` items from `Sequence`s (collapsing
empty to `Epsilon`, singleton to the sole item), drop `Epsilon` options from
`Choice`s re-inserting one canonical trailing `Epsilon` when any was present
(collapsing empty to `Epsilon`, singleton to the sole option). -/
def Grammar.pruneSymbol (eps : List String) : Symbol → Symbol
  | .nonTerminal n =>
      if eps.contains n then .epsilon else .nonTerminal n
  | .sequence items =>
      let newItems := (Grammar.pruneList eps items).filter (fun s => !s.isEpsilonNode)
      match newItems with
      | [] => .epsilon
      | [x] => x
      | xs => .sequence xs
  | .choice opts =>
      let pruned := Grammar.pruneList eps opts
      let newOpts := pruned.filter (fun s => !s.isEpsilonNode)
      let hasEpsilon := pruned.any (fun s => s.isEpsilonNode)
      if newOpts.isEmpty then .epsilon
      else
        let newOpts :=
          if hasEpsilon && !(newOpts.any (fun s => s.isEpsilonNode)) then
            newOpts ++ [Symbol.epsilon]
          else newOpts
        match newOpts with
        | [x] => x
        | xs => .choice xs
  | s => s

/-- `_prune_symbol` mapped over children. -/
def Grammar.pruneList (eps : List String) : List Symbol → List Symbol
  | [] => []
  | s :: rest => Grammar.pruneSymbol eps s :: Grammar.pruneList eps rest

end

/-- One check of the fixed-point loop body in `Grammar.cleanup` step 1: skip
names already in the set, else add the name if its body is epsilon. -/
def Grammar.epsPassStep (eps : List String) (r : String × Symbol) : List String :=
  if eps.contains r.1 then eps
  else if Grammar.isSymbolEpsilon eps r.2 then eps ++ [r.1] else eps

/-- One full pass of `for name, rule in self.rules.items(): ...` in
`Grammar.cleanup` step 1. -/
def Grammar.epsPass (rules : List (String × Symbol)) (eps : List String) :
    List String :=
  rules.foldl Grammar.epsPassStep eps

/-- The `while True: ... if not changed: break` loop of `Grammar.cleanup`
step 1.  The Python loop is unbounded; a pass changes nothing exactly when
`epsPass` returns its argument, and each changing pass adds at least one rule
name, so `rules.length + 1` passes provably reach the fixed point (see
`Grammar.epsPass_epsilonRules`). -/
def Grammar.epsLoop (rules : List (String × Symbol)) :
    Nat → List String → List String
  | 0, eps => eps
  | Nat.succ fuel, eps =>
      let eps2 := Grammar.epsPass rules eps
      if eps2 = eps then eps else Grammar.epsLoop rules fuel eps2

/-- The epsilon-rule set computed by `Grammar.cleanup` step 1. -/
def Grammar.epsilonRules (rules : List (String × Symbol)) : List String :=
  Grammar.epsLoop rules (rules.length + 1) []

/-- `Grammar.cleanup` (grammar.py lines 169-208).  Step 2 deletes epsilon
rules, prunes surviving bodies and drops rules whose pruned body is
`Epsilon`.  Step 3 executes `if self.root: self.root =
self._prune_symbol(self.root, epsilon_rules)`; reading `self.root` goes
through `Grammar.__getattr__` (rule names live in the `rules` dict, not in
the instance attributes), so it always yields the fresh forward reference
`NonTerminal("root")`, which is truthy, and the assignment routes through
`__setattr__` into `rules["root"]`. -/
def Grammar.cleanup (g : Grammar) : Grammar :=
  let eps := Grammar.epsilonRules g.rules
  let newRules := g.rules.foldl
    (fun acc r =>
      if eps.contains r.1 then acc
      else
        let newBody := Grammar.pruneSymbol eps r.2
        if newBody.isEpsilonNode then acc else acc ++ [(r.1, newBody)])
    []
  { rules := dictInsert newRules "root"
      (Grammar.pruneSymbol eps (Symbol.nonTerminal "root")) }

/-- The choice-wrapping step of `LarkCompiler.visit_sequence` (lark.py lines
60-74): a child that is a `Choice` with more than one option whose rendered
text contains `|` gets parenthesized; empty parts are skipped. -/
def LarkCompiler.assembleSeq : List Symbol → List String → List String
  | c :: cs, p :: ps =>
      if p = "" then LarkCompiler.assembleSeq cs ps
      else
        let part :=
          match c with
          | .choice opts =>
              if opts.length > 1 && p.contains '|' then "(" ++ p ++ ")" else p
          | _ => p
        part :: LarkCompiler.assembleSeq cs ps
  | _, _ => []

mutual

/-- The visitor of `src/typus/backends/lark.py` (`Symbol.accept` double
dispatch): renders one symbol to Lark text, or raises.  `raise Exception` in
`visit_sequence`/`visit_choice` is modelled as `.error "Exception"`, the
`ValueError` of `visit_terminal` as its message, and the `assert False` of
`visit_epsilon` as `.error "AssertionError"`. -/
def LarkCompiler.visit : Symbol → Except String String
  | .terminal v isRegex =>
      if v = "" then .error "Empty terminals not allowed"
      else if isRegex then .ok ("/" ++ v.replace "/" "\\/" ++ "/")
      else .ok ("\"" ++ v.replace "\"" "\\\"" ++ "\"")
  | .sequence items =>
      match LarkCompiler.visitAll items with
      | .error e => .error e
      | .ok parts =>
          let cleanParts := parts.filter (fun p => p ≠ "")
          if cleanParts.isEmpty then .error "Exception"
          else .ok (String.intercalate " " (LarkCompiler.assembleSeq items parts))
  | .choice opts =>
      match LarkCompiler.visitOptions opts with
      | .error e => .error e
      | .ok (compiledOpts, hasEpsilon) =>
          if compiledOpts.isEmpty then .error "Exception"
          else
            let core := String.intercalate " | " compiledOpts
            if hasEpsilon then
              if compiledOpts.length = 1 then
                if core.contains ' ' && !(core.startsWith "(" && core.endsWith ")") then
                  .ok ("(" ++ core ++ ")?")
                else .ok (core ++ "?")
              else .ok ("(" ++ core ++ ")?")
            else .ok core
  | .epsilon => .error "AssertionError"
  | .nonTerminal n => .ok n.toLower

/-- `[child.accept(self) for child in node.items]` (first exception wins). -/
def LarkCompiler.visitAll : List Symbol → Except String (List String)
  | [] => .ok []
  | s :: rest =>
      match LarkCompiler.visit s with
      | .error e => .error e
      | .ok p =>
          match LarkCompiler.visitAll rest with
          | .error e => .error e
          | .ok ps => .ok (p :: ps)

/-- The option partition loop of `visit_choice` (lark.py lines 81-92):
returns the compiled non-empty options in order, and whether an `Epsilon`
node or an empty rendering was seen. -/
def LarkCompiler.visitOptions : List Symbol → Except String (List String × Bool)
  | [] => .ok ([], false)
  | c :: cs =>
      if c.isEpsilonNode then
        match LarkCompiler.visitOptions cs with
        | .error e => .error e
        | .ok (opts, _) => .ok (opts, true)
      else
        match LarkCompiler.visit c with
        | .error e => .error e
        | .ok res =>
            match LarkCompiler.visitOptions cs with
            | .error e => .error e
            | .ok (opts, hasEps) =>
                if res = "" then .ok (opts, true)
                else .ok (res :: opts, hasEps)

end

/-- `LarkCompiler.compile`'s rule loop (lark.py lines 26-31): each rule
renders as `name.lower(): definition`, an empty definition becoming the
explicit empty string literal. -/
def LarkCompiler.compileLines : List (String × Symbol) → Except String (List String)
  | [] => .ok []
  | (name, symbol) :: rest =>
      match LarkCompiler.visit symbol with
      | .error e => .error e
      | .ok defn =>
          let defn := if defn = "" then "\"\"" else defn
          match LarkCompiler.compileLines rest with
          | .error e => .error e
          | .ok lines => .ok ((name.toLower ++ ": " ++ defn) :: lines)

/-- `LarkCompiler.compile` (lark.py lines 16-33): the fixed `start: root`
entrypoint line followed by one line per rule. -/
def LarkCompiler.compile (g : Grammar) : Except String String :=
  match LarkCompiler.compileLines g.rules with
  | .error e => .error e
  | .ok lines => .ok (String.intercalate "\n" ("start: root" :: lines))

/-- `Grammar.compile` (grammar.py lines 37-47) specialized to the `"lark"`
backend (the only backend whose compiler sources are present under `src/`):
raises `RuntimeError("No root symbol defined")` when no rule named `root`
exists, then invokes the backend visitor on the grammar. -/
def Grammar.compileLark (g : Grammar) : Except String String :=
  if !dictHasKey g.rules "root" then .error "No root symbol defined"
  else LarkCompiler.compile g

/-- Canonical Python types as the reflector sees them: the built-in leaf
types plus named concrete classes.  Generic aliases are canonicalized to
their origin before any use (`getattr(py_type, "__origin__", py_type)`,
reflector.py line 46), so the embedding works with canonical types
directly. -/
inductive PyType where
  | int
  | str
  | float
  | bool
  | list
  | dict
  | set
  | cls (name : String)
deriving DecidableEq, Repr

/-- `__name__` of a canonical type. -/
def PyType.typeName : PyType → String
  | .int => "int"
  | .str => "str"
  | .float => "float"
  | .bool => "bool"
  | .list => "list"
  | .dict => "dict"
  | .set => "set"
  | .cls n => n

/-- `inspect.isclass(origin)`: every canonical type modelled here is a Python
class (`int`, `str`, ..., `set` and user classes all are). -/
def PyType.isClass : PyType → Bool := fun _ => true

/-- `Transition` (domain/models.py).  The dataclass holds `TypeNode`
references; `TypeNode.__eq__`/`__hash__` compare only `py_type`, so nodes are
referenced here by their canonical type. -/
structure Transition where
  name : String
  returnType : PyType
  params : List (String × PyType)
  isMethod : Bool
  originType : Option PyType
deriving DecidableEq, Repr

/-- `TypeNode` (domain/models.py). -/
structure TypeNode where
  pyType : PyType
  name : String
  producers : List Transition
deriving DecidableEq, Repr

/-- The mutable state of a `Reflector` (reflector.py lines 13-17): the
`_nodes` dict keyed by canonical type and the `_queue` deque (queued nodes
recorded by their canonical type). -/
structure ReflectorState where
  nodes : List (PyType × TypeNode)
  queue : List PyType
deriving DecidableEq, Repr

/-- `Reflector._get_or_create_node` (reflector.py lines 40-60): return the
node for an already-seen canonical type unchanged, else record a fresh node
and enqueue it for method analysis unless it is in the skip tuple
`(str, int, float, bool, list, dict)` (line 57).  The node is identified by
its canonical type (the dict key). -/
def Reflector.getOrCreateNode (st : ReflectorState) (pyType : PyType) :
    ReflectorState × PyType :=
  let origin := pyType
  if origin ∈ st.nodes.map Prod.fst then (st, origin)
  else
    let node : TypeNode :=
      { pyType := origin, name := origin.typeName, producers := [] }
    let nodes := st.nodes ++ [(origin, node)]
    let queue :=
      if origin.isClass = true ∧
          origin ∉ [PyType.str, PyType.int, PyType.float, PyType.bool,
                    PyType.list, PyType.dict] then
        st.queue ++ [origin]
      else st.queue
    ({ nodes := nodes, queue := queue }, origin)

/-- The result of `get_type_hints(func)` as `_analyze_function` consumes it:
`ret` is the `"return"` entry (`none`: absent; `some none`: annotated
`None`/`NoneType`; `some (some t)`: a type), `params` the remaining
name→type entries. -/
structure Hints where
  ret : Option (Option PyType)
  params : List (String × PyType)
deriving DecidableEq, Repr

/-- One reflected callable: its `__name__`, the (fallible) resolved hints
(`none` models `get_type_hints` raising), and `inspect.signature` parameter
names in order. -/
structure FuncDef where
  name : String
  hints : Option Hints
  sigParams : List String
deriving DecidableEq, Repr

/-- `return_type.producers.append(transition)` (reflector.py line 128):
append to the producer list of the node with the given canonical type. -/
def ReflectorState.appendProducer (st : ReflectorState) (key : PyType)
    (t : Transition) : ReflectorState :=
  { st with
      nodes := st.nodes.map (fun p =>
        if p.1 = key then (p.1, { p.2 with producers := p.2.producers ++ [t] })
        else p) }

/-- The parameter loop of `_analyze_function` (reflector.py lines 102-115):
walk signature parameters in order, skip `self` and unhinted names, and
get-or-create a node for each hinted parameter type. -/
def Reflector.analyzeParams (hints : List (String × PyType)) :
    List String → ReflectorState → ReflectorState × List (String × PyType)
  | [], st => (st, [])
  | p :: rest, st =>
      if p = "self" then Reflector.analyzeParams hints rest st
      else
        match hints.find? (fun h => h.1 = p) with
        | some hp =>
            let (st', key) := Reflector.getOrCreateNode st hp.2
            let (st'', ps) := Reflector.analyzeParams hints rest st'
            (st'', (p, key) :: ps)
        | none => Reflector.analyzeParams hints rest st

/-- Python `name.startswith("_")`: the first character is an underscore
(modelled on the character list so concrete evaluation reduces in the
kernel). -/
def startsWithUnderscore (name : String) : Bool :=
  match name.data with
  | [] => false
  | c :: _ => c = '_'

/-- `Reflector._analyze_function` (reflector.py lines 62-128): skip private
names (except `__init__`), skip callables whose hints fail to resolve;
`__init__` becomes a constructor transition on the owner (`is_method =
False`, `origin_type = None`); any other callable with a missing or
`None`-typed return annotation is skipped; otherwise a transition is
registered on the return type's node. -/
def Reflector.analyzeFunction (st : ReflectorState) (func : FuncDef)
    (ownerNode : Option PyType) : ReflectorState :=
  let name := func.name
  if startsWithUnderscore name && name ≠ "__init__" then st
  else
    match func.hints with
    | none => st
    | some hints =>
        if name = "__init__" then
          match ownerNode with
          | none => st
          | some owner =>
              let (st', ps) := Reflector.analyzeParams hints.params func.sigParams st
              let transition : Transition :=
                { name := name, returnType := owner, params := ps,
                  isMethod := false, originType := none }
              st'.appendProducer owner transition
        else
          match hints.ret with
          | none => st
          | some none => st
          | some (some rt) =>
              let (st', returnKey) := Reflector.getOrCreateNode st rt
              let isMethodCall := ownerNode.isSome
              let (st'', ps) := Reflector.analyzeParams hints.params func.sigParams st'
              let transition : Transition :=
                { name := name, returnType := returnKey, params := ps,
                  isMethod := isMethodCall, originType := ownerNode }
              st''.appendProducer returnKey transition

/-- The target-syntax strategy interface (`languages/protocol.py`).  The
shipped renderers (`languages/python.py` and the tests' mock language) are
pure functions of their arguments — they use the `RenderContext` only for
`ctx.grammar.regex`, itself a pure `Terminal` constructor — so the embedding
takes plain functions. -/
structure Language where
  renderPrimitive : PyType → Symbol
  renderHead : String → List (String × Symbol) → Option Symbol → Symbol
  renderTail : String → List (String × Symbol) → Symbol

/-- The argument-list loop of `Python._render_args` (languages/python.py
lines 49-54): `", "` before every argument but the first, then `name=` and
the argument's symbol. -/
def Python.argItems (first : Bool) : List (String × Symbol) → List Symbol
  | [] => []
  | (n, r) :: rest =>
      let base := [Symbol.terminal (n ++ "=") false, r]
      (if first then base else Symbol.terminal ", " false :: base) ++
        Python.argItems false rest

/-- `Python._render_args` (languages/python.py lines 44-56). -/
def Python.renderArgs (args : List (String × Symbol)) : Symbol :=
  if args.isEmpty then .epsilon
  else .sequence (Python.argItems true args)

/-- `Python.render_head` (languages/python.py lines 26-37). -/
def Python.renderHead (name : String) (args : List (String × Symbol))
    (origin : Option Symbol) : Symbol :=
  let argSeq := Python.renderArgs args
  match origin with
  | some o =>
      ((o.add (Symbol.terminal ("." ++ name ++ "(") false)).add argSeq).add
        (Symbol.terminal ")" false)
  | none =>
      ((Symbol.terminal (name ++ "(") false).add argSeq).add
        (Symbol.terminal ")" false)

/-- `Python.render_tail` (languages/python.py lines 39-42). -/
def Python.renderTail (name : String) (args : List (String × Symbol)) : Symbol :=
  let argSeq := Python.renderArgs args
  ((Symbol.terminal ("." ++ name ++ "(") false).add argSeq).add
    (Symbol.terminal ")" false)

/-- `Python.render_primitive` (languages/python.py lines 11-24). -/
def Python.renderPrimitive : PyType → Symbol
  | .int => Grammar.regexTerm "[0-9]+"
  | .str => Grammar.regexTerm "\\\"[^\"]*\\\""
  | .bool => (Symbol.terminal "True" false).orSym (Symbol.terminal "False" false)
  | t => Symbol.terminal ("<" ++ t.typeName ++ ">") false

/-- The `Python` language strategy of `languages/python.py`. -/
def pythonLang : Language :=
  { renderPrimitive := Python.renderPrimitive,
    renderHead := Python.renderHead,
    renderTail := Python.renderTail }

/-- The domain generator's view of the finished reflection graph: producers
per canonical type.  `DomainGenerator` reads nodes only through
`reflector._get_or_create_node`, which at generation time is a get-or-create
on the completed `_nodes` map — a type never seen before yields a node with
an empty producer list, which the total function models by returning `[]`. -/
def Domain := PyType → List Transition

/-- The generator's mutable state (generator.py lines 16-21): the grammar's
rules dict and the keys of the `_cache` memo (`_cache[t]` is always
`NonTerminal(t.__name__)`, so only the keys need recording). -/
structure GenState where
  rules : List (String × Symbol)
  cache : List PyType
deriving DecidableEq, Repr

/-- `py_type in (int, str, float, bool)` (generator.py lines 30 and 51). -/
def isResolvePrimitive (t : PyType) : Bool :=
  [PyType.int, PyType.str, PyType.float, PyType.bool].contains t

/-- The resolver callback type: `self._resolve_type` as the loops of
`_build_rule_body` use it. -/
def Resolver : Type :=
  GenState → PyType → Except GenError (GenState × Symbol)

/-- `{k: self._resolve_type(v.py_type) for k, v in trans.params.items()}`
(generator.py lines 69-71), threading the generator state in order. -/
def resolveArgsWith (resolve : Resolver) :
    GenState → List (String × PyType) →
    Except GenError (GenState × List (String × Symbol))
  | st, [] => .ok (st, [])
  | st, (k, ty) :: rest =>
      match resolve st ty with
      | .error e => .error e
      | .ok (st', sym) =>
          match resolveArgsWith resolve st' rest with
          | .error e => .error e
          | .ok (st'', args) => .ok (st'', (k, sym) :: args)

/-- The producer classification loop of `_build_rule_body` (generator.py
lines 68-91): fluent methods (`origin == node == return`) render as tails;
methods on this node returning another type are exits; everything else is a
head, with the origin type resolved when the producer is a method on a
different type. -/
def classifyProducersWith (resolve : Resolver) (L : Language) (node : PyType) :
    GenState → List Transition →
    List Symbol → List Symbol → List (Symbol × PyType) →
    Except GenError (GenState × List Symbol × List Symbol × List (Symbol × PyType))
  | st, [], heads, fluents, exits => .ok (st, heads, fluents, exits)
  | st, tr :: rest, heads, fluents, exits =>
      match resolveArgsWith resolve st tr.params with
      | .error e => .error e
      | .ok (st', argSymbols) =>
          if tr.isMethod && tr.originType = some node then
            let sym := L.renderTail tr.name argSymbols
            if tr.returnType = node then
              classifyProducersWith resolve L node st' rest heads (fluents ++ [sym]) exits
            else
              classifyProducersWith resolve L node st' rest heads fluents
                (exits ++ [(sym, tr.returnType)])
          else
            match tr.originType, tr.isMethod with
            | some ot, true =>
                match resolve st' ot with
                | .error e => .error e
                | .ok (st'', originSym) =>
                    let sym := L.renderHead tr.name argSymbols (some originSym)
                    classifyProducersWith resolve L node st'' rest (heads ++ [sym])
                      fluents exits
            | _, _ =>
                let sym := L.renderHead tr.name argSymbols none
                classifyProducersWith resolve L node st' rest (heads ++ [sym])
                  fluents exits

/-- The exit loop of `_build_rule_body` (generator.py lines 114-124): pair
every exit fragment with the target's pipeline reference, then trigger
resolution of the target type. -/
def resolveExitsWith (resolve : Resolver) :
    GenState → List (Symbol × PyType) → List Symbol →
    Except GenError (GenState × List Symbol)
  | st, [], acc => .ok (st, acc)
  | st, (sym, target) :: rest, acc =>
      let opt := sym.add (Symbol.nonTerminal (target.typeName ++ "_Pipeline"))
      match resolve st target with
      | .error e => .error e
      | .ok (st', _) => resolveExitsWith resolve st' rest (acc ++ [opt])

/-- `DomainGenerator._build_rule_body` (generator.py lines 56-133): classify
producers, define `T_Chain := Choice(fluents)`, call
`self.grammar.any(strict_chain_name)` — passing the *rule name string*,
which `Grammar.some` converts to `Terminal(strict_chain_name)` — define
`T := head_rule + strict_chain_ref`, then build `T_Pipeline`. -/
def buildRuleBodyWith (resolve : Resolver) (L : Language) (st : GenState)
    (t : PyType) (producers : List Transition) (refName : String)
    (isPrim : Bool) : Except GenError GenState :=
  let initHeads : List Symbol := if isPrim then [L.renderPrimitive t] else []
  match classifyProducersWith resolve L t st producers initHeads [] [] with
  | .error e => .error e
  | .ok (st', heads, fluents, exits) =>
      let headRule := Symbol.choice heads
      let fluentChoice := Symbol.choice fluents
      let strictChainName := refName ++ "_Chain"
      let rules := dictInsert st'.rules strictChainName fluentChoice
      match Grammar.anyStr rules strictChainName with
      | .error e => .error e
      | .ok (rules', strictChainRef) =>
          let rules'' := dictInsert rules' refName (headRule.add strictChainRef)
          let st'' := { st' with rules := rules'' }
          match resolveExitsWith resolve st'' exits [] with
          | .error e => .error e
          | .ok (st3, exitOptions) =>
              let pipelineRule :=
                if exitOptions.isEmpty then strictChainRef
                else strictChainRef.add (Grammar.maybe (Symbol.choice exitOptions))
              .ok { st3 with
                      rules := dictInsert st3.rules (refName ++ "_Pipeline")
                        pipelineRule }

/-- `DomainGenerator._resolve_type` (generator.py lines 23-54).  The `fuel`
argument bounds the recursion depth so the embedding is total (recursion is
structural on `fuel`, which only decreases when descending into a new rule
body); the Python code is unbounded, and the termination theorem shows a
sufficient fuel always exists.  Note the order of operations: the forward
reference is inserted into the cache *before* `_build_rule_body` recurses. -/
def resolveType (L : Language) (dom : Domain) :
    Nat → GenState → PyType → Except GenError (GenState × Symbol)
  | 0, _, _ => .error .fuelOut
  | Nat.succ fuel, st, t =>
      let producers := dom t
      if isResolvePrimitive t && producers.isEmpty then
        .ok (st, L.renderPrimitive t)
      else if t ∈ st.cache then
        .ok (st, .nonTerminal t.typeName)
      else
        let name := t.typeName
        let st' := { st with cache := st.cache ++ [t] }
        match buildRuleBodyWith (resolveType L dom fuel) L st' t producers name
            (isResolvePrimitive t) with
        | .error e => .error e
        | .ok st'' => .ok (st'', .nonTerminal name)

/-- `resolveArgsWith` instantiated with the fuelled resolver. -/
def resolveArgs (L : Language) (dom : Domain) (fuel : Nat) :
    GenState → List (String × PyType) →
    Except GenError (GenState × List (String × Symbol)) :=
  resolveArgsWith (resolveType L dom fuel)

/-- The function-entrypoint scan of `DomainGenerator.build` (generator.py
lines 164-177): walk the discovered nodes in order and return the first
node/transition pair whose transition name equals the entry function's
`__name__` ("Match by name is weak, but sufficient for v0.4"). -/
def findFunctionTarget : List TypeNode → String → Option (TypeNode × Transition)
  | [], _ => none
  | n :: rest, fname =>
      match n.producers.find? (fun t => t.name = fname) with
      | some t => some (n, t)
      | none => findFunctionTarget rest fname

/-- Case B of the root construction in `DomainGenerator.build` (generator.py
lines 158-191): for a function entrypoint, locate a transition by name via
`findFunctionTarget`, resolve its argument symbols, render its head and pair
it with the *found node's* pipeline reference.  Returns `none` when no
same-named transition exists. -/
def buildFunctionRootOption (L : Language) (dom : Domain) (fuel : Nat)
    (st : GenState) (nodes : List TypeNode) (fname : String) :
    Except GenError (GenState × Option Symbol) :=
  match findFunctionTarget nodes fname with
  | none => .ok (st, none)
  | some (targetNode, targetTrans) =>
      match resolveArgs L dom fuel st targetTrans.params with
      | .error e => .error e
      | .ok (st', argSyms) =>
          let head := L.renderHead targetTrans.name argSyms none
          let pipelineRef := Symbol.nonTerminal (targetNode.name ++ "_Pipeline")
          .ok (st', some (head.add pipelineRef))

mutual

/-- The rule names referenced (through `NonTerminal`s) inside a symbol. -/
def Symbol.refs : Symbol → List String
  | .terminal _ _ => []
  | .nonTerminal n => [n]
  | .sequence items => Symbol.refsList items
  | .choice opts => Symbol.refsList opts
  | .epsilon => []

/-- `Symbol.refs` over a list of children. -/
def Symbol.refsList : List Symbol → List String
  | [] => []
  | s :: rest => Symbol.refs s ++ Symbol.refsList rest

end

/-- A grammar is reference-closed when every `NonTerminal` occurring in a
rule body names a defined rule. -/
def Grammar.refsClosed (g : Grammar) : Prop :=
  ∀ p ∈ g.rules, ∀ n ∈ (p.2 : Symbol).refs, dictHasKey g.rules n = true

/-- The body of `cleanup` step 2 written as a recursion (the `foldl` of
`Grammar.cleanup` appends exactly these entries; see
`Grammar.cleanup_rules_eq`). -/
def Grammar.cleanupKept (eps : List String) :
    List (String × Symbol) → List (String × Symbol)
  | [] => []
  | (n, b) :: rest =>
      if eps.contains n then Grammar.cleanupKept eps rest
      else
        let nb := Grammar.pruneSymbol eps b
        if nb.isEpsilonNode then Grammar.cleanupKept eps rest
        else (n, nb) :: Grammar.cleanupKept eps rest

/-! ## Concrete fixtures used by the claim theorems -/

/-- A reflected domain with one class `DF`: a parameterless constructor
(head), a fluent `select(col: str) -> DF`, and a method `count() -> int`
(attached by the reflector to `int`'s node, its return type). -/
def domC1 : Domain := fun t =>
  match t with
  | .cls "DF" =>
      [ { name := "__init__", returnType := .cls "DF", params := [],
          isMethod := false, originType := none },
        { name := "select", returnType := .cls "DF",
          params := [("col", PyType.str)], isMethod := true,
          originType := some (.cls "DF") } ]
  | .int =>
      [ { name := "count", returnType := .int, params := [],
          isMethod := true, originType := some (.cls "DF") } ]
  | _ => []

/-- The empty generator state (a fresh `DomainGenerator`). -/
def genState0 : GenState := { rules := [], cache := [] }

/-- The fluent fragment `.select(col=<str>)` as the `Python` language renders
it. -/
def selectTail : Symbol :=
  Symbol.sequence
    [Symbol.terminal ".select(" false, Symbol.terminal "col=" false,
     Symbol.terminal "\\\"[^\"]*\\\"" true, Symbol.terminal ")" false]

/-- The head fragment `__init__()` as the `Python` language renders it. -/
def initHead : Symbol :=
  Symbol.sequence [Symbol.terminal "__init__(" false, Symbol.terminal ")" false]

/-- A fresh grammar on which one rule (named `word`, not `root`) has been
defined. -/
def gFirstRule : Grammar := { rules := [("word", Symbol.terminal "hi" false)] }

/-- A grammar whose `root` rule body is `Terminal("a")` plus one epsilon rule
`e`. -/
def gRootTerminal : Grammar :=
  { rules := [("root", Symbol.terminal "a" false), ("e", Symbol.epsilon)] }

/-- A grammar with a dead rule (`Choice` with zero options) referenced from
the middle of a sequence. -/
def gDeadChoice : Grammar :=
  { rules :=
      [("root", Symbol.terminal "z" false),
       ("r", Symbol.sequence
          [Symbol.terminal "a" false, Symbol.nonTerminal "dead",
           Symbol.terminal "b" false]),
       ("dead", Symbol.choice [])] }

/-- A grammar whose `root` rule is a dead `Choice` (the rule a type with zero
head producers gets). -/
def gDeadRoot : Grammar := { rules := [("root", Symbol.choice [])] }

/-- A method named `load` on class `A` (returning `A`): it shares its name
with the free function below. -/
def trLoadMethodA : Transition :=
  { name := "load", returnType := .cls "A", params := [],
    isMethod := true, originType := some (.cls "A") }

/-- The free function `load() -> B` (the intended function entrypoint). -/
def trLoadFunctionB : Transition :=
  { name := "load", returnType := .cls "B", params := [],
    isMethod := false, originType := none }

/-- Node for class `A`, discovered first, carrying the colliding method. -/
def nodeA : TypeNode :=
  { pyType := .cls "A", name := "A", producers := [trLoadMethodA] }

/-- Node for class `B`, carrying the entrypoint function's own transition. -/
def nodeB : TypeNode :=
  { pyType := .cls "B", name := "B", producers := [trLoadFunctionB] }

/-- Discovery order: `A` before `B`. -/
def nodesC10 : List TypeNode := [nodeA, nodeB]

/-- The empty domain (no producers anywhere). -/
def domEmpty : Domain := fun _ => []

/-- A reflector state holding only the node for class `Other` (no producers
anywhere). -/
def stOther : ReflectorState :=
  { nodes := [(.cls "Other",
      { pyType := .cls "Other", name := "Other", producers := [] })],
    queue := [] }

/-- The reflected member `def do_nothing(self) -> None`. -/
def doNothingFunc : FuncDef :=
  { name := "do_nothing", hints := some { ret := some none, params := [] },
    sigParams := ["self"] }

/-- A resolver whose successful runs only ever append to the memo cache. -/
def CacheMono (resolve : Resolver) : Prop :=
  ∀ st t st' s, resolve st t = .ok (st', s) → ∃ ext, st'.cache = st.cache ++ ext

/-- How many of the domain's types are still missing from the memo cache —
the quantity that strictly decreases at every recursive descent of
`_resolve_type`, because the forward reference is cached *before* the
recursion. -/
def missingCount (univ : List PyType) (cache : List PyType) : Nat :=
  (univ.filter (fun u => decide (u ∉ cache))).length

/-- The finite universe `univ` is closed under the domain's producer graph:
every parameter type, method origin type and return type of a producer of a
type in `univ` is again in `univ`.  This is the finiteness hypothesis of the
termination theorem — a reflected domain always satisfies it with `univ` the
discovered node keys. -/
def DomClosed (univ : List PyType) (dom : Domain) : Prop :=
  ∀ t ∈ univ, ∀ tr ∈ dom t,
    (∀ p ∈ tr.params, p.2 ∈ univ) ∧
    (∀ ot ∈ tr.originType.toList, ot ∈ univ) ∧
    tr.returnType ∈ univ

/-- The closed universe of the `DF` fixture domain. -/
def univC5 : List PyType := [PyType.cls "DF", PyType.str, PyType.int]

/-! ## Claim theorems -/

/-- **C1** (code_bug evidence).  For the `DF` domain the generator defines
`DF_Chain := Choice(Fluents)` as the spec says, but the strict rule's
repetition repeats the literal `Terminal("DF_Chain")`: `_build_rule_body`
passes the chain *rule name string* to `Grammar.any`, whose `some` converts a
bare string to a `Terminal`, so `some_DF_Chain ::= "DF_Chain" | "DF_Chain"
some_DF_Chain` and the zero-or-more part of `DF ::= Choice(Heads) +
(·)*` derives the literal text `DF_Chain`, never the fluent fragments.  The
claim (and spec) say the repetition derives the fluent method fragments —
the repo's own round-trip test (`test_python_roundtrip.py`, case B) requires
`DataFrame(path="data").select(col="age")` to parse, which this grammar
cannot do. -/
theorem c1_strict_rule_repeats_chain_name_literal :
    resolveType pythonLang domC1 4 genState0 (PyType.cls "DF") =
      .ok
        ({ rules :=
            [("DF_Chain", Symbol.choice [selectTail]),
             ("some_DF_Chain", Symbol.choice
                [Symbol.terminal "DF_Chain" false,
                 Symbol.sequence
                   [Symbol.terminal "DF_Chain" false,
                    Symbol.nonTerminal "some_DF_Chain"]]),
             ("DF", Symbol.sequence
                [Symbol.choice [initHead],
                 Symbol.choice [Symbol.nonTerminal "some_DF_Chain", Symbol.epsilon]]),
             ("DF_Pipeline", Symbol.choice
                [Symbol.nonTerminal "some_DF_Chain", Symbol.epsilon])],
           cache := [PyType.cls "DF"] },
         Symbol.nonTerminal "DF") ∧
    (Symbol.terminal "DF_Chain" false) ≠ (Symbol.nonTerminal "DF_Chain") := by
  constructor
  · rfl
  · decide

/-- **C2** (counterexample).  On a fresh container with its first (and only)
rule defined under the name `word`, `compile()` *does* fail with the
missing-root error: nothing in `Grammar.__setattr__` installs a first-defined
rule as a default root; `compile` requires a rule literally named `root`. -/
theorem c2_first_rule_is_not_default_root :
    gFirstRule.rules ≠ [] ∧
    Grammar.compileLark gFirstRule = .error "No root symbol defined" := by
  constructor
  · decide
  · rfl

/-- **C2** (amended).  `compile()` resolves a root only when a rule literally
named `root` exists: whenever no rule named `root` is defined — no matter how
many rules were defined under other names — it fails with the missing-root
error. -/
theorem c2_compile_requires_root_rule (g : Grammar)
    (h : dictHasKey g.rules "root" = false) :
    Grammar.compileLark g = .error "No root symbol defined" := by
  unfold Grammar.compileLark
  rw [h]
  rfl

/-- **C2** (witness for the amended theorem). -/
theorem c2_compile_requires_root_rule_witness :
    dictHasKey gFirstRule.rules "root" = false ∧
    Grammar.compileLark gFirstRule = .error "No root symbol defined" :=
  ⟨by decide, c2_compile_requires_root_rule gFirstRule (by decide)⟩

/-- **C3** (code_bug evidence).  On a grammar whose `root` rule body is
`Terminal("a")` (not epsilon), `cleanup()` leaves `rules["root"] =
NonTerminal("root")` — a self-reference — although the epsilon-pruned rewrite
of the pre-cleanup root body is `Terminal("a")` itself.  Step 3 of `cleanup`
reads `self.root` through `__getattr__`, which returns a fresh
`NonTerminal("root")` instead of the stored rule body, and writes its pruned
form back over the correctly rewritten rule. -/
theorem c3_cleanup_clobbers_root_with_self_reference :
    (Grammar.cleanup gRootTerminal).rules = [("root", Symbol.nonTerminal "root")] ∧
    Grammar.pruneSymbol (Grammar.epsilonRules gRootTerminal.rules)
        (Symbol.terminal "a" false) = Symbol.terminal "a" false ∧
    (Symbol.nonTerminal "root") ≠ (Symbol.terminal "a" false) := by
  refine ⟨rfl, rfl, by decide⟩

/-- **C4** (code_bug evidence).  Rendering a `Choice` with zero real options
through the Lark backend does not yield empty text: `visit_choice` executes
`raise Exception` (its `return ""` directly below is dead code), so compiling
a grammar containing such a dead rule raises instead of surfacing the dead
rule structurally. -/
theorem c4_zero_option_choice_raises :
    LarkCompiler.visit (Symbol.choice []) = .error "Exception" ∧
    Grammar.compileLark gDeadRoot = .error "Exception" := by
  exact ⟨rfl, rfl⟩

/-- **C6** (counterexample).  `set` is *not* in the skip tuple
`(str, int, float, bool, list, dict)` of `_get_or_create_node`, so on first
encounter the `set` type is both recorded and *enqueued* for method
scanning, contradicting the claim that it is never enqueued. -/
theorem c6_set_is_enqueued :
    (Reflector.getOrCreateNode { nodes := [], queue := [] } PyType.set).1 =
      { nodes := [(PyType.set,
          { pyType := PyType.set, name := "set", producers := [] })],
        queue := [PyType.set] } := by
  rfl

/-- **C6** (amended).  The leaf canonical types integer, string, float,
boolean, list and mapping are recorded as TypeNodes when encountered but
never enqueued for method scanning; `set`, by contrast, is recorded *and*
enqueued on first encounter (it is missing from the skip tuple). -/
theorem c6_leaf_types_recorded_never_enqueued (st : ReflectorState) (t : PyType)
    (h : t ∈ [PyType.int, PyType.str, PyType.float, PyType.bool,
              PyType.list, PyType.dict]) :
    (Reflector.getOrCreateNode st t).1.queue = st.queue ∧
    t ∈ (Reflector.getOrCreateNode st t).1.nodes.map Prod.fst ∧
    ((PyType.set ∉ st.nodes.map Prod.fst) →
      (Reflector.getOrCreateNode st PyType.set).1.queue = st.queue ++ [PyType.set]) := by
  refine ⟨?_, ?_, ?_⟩
  · unfold Reflector.getOrCreateNode
    by_cases hmem : t ∈ st.nodes.map Prod.fst
    · rw [if_pos hmem]
    · rw [if_neg hmem]
      dsimp only
      rw [if_neg (fun hcond => hcond.2 (by fin_cases h <;> decide))]
  · unfold Reflector.getOrCreateNode
    by_cases hmem : t ∈ st.nodes.map Prod.fst
    · rw [if_pos hmem]
      exact hmem
    · rw [if_neg hmem]
      dsimp only
      simp
  · intro hset
    unfold Reflector.getOrCreateNode
    rw [if_neg hset]
    dsimp only
    rw [if_pos ⟨rfl, by decide⟩]

/-- **C6** (witness for the amended theorem). -/
theorem c6_leaf_types_recorded_never_enqueued_witness :
    (PyType.int ∈ [PyType.int, PyType.str, PyType.float, PyType.bool,
                   PyType.list, PyType.dict]) ∧
    ((Reflector.getOrCreateNode { nodes := [], queue := [] } PyType.int).1.queue = [] ∧
     PyType.int ∈ (Reflector.getOrCreateNode { nodes := [], queue := [] }
        PyType.int).1.nodes.map Prod.fst ∧
     ((PyType.set ∉ (([] : List (PyType × TypeNode)).map Prod.fst)) →
       (Reflector.getOrCreateNode { nodes := [], queue := [] } PyType.set).1.queue =
         [] ++ [PyType.set])) :=
  ⟨by decide,
   c6_leaf_types_recorded_never_enqueued { nodes := [], queue := [] } PyType.int
     (by decide)⟩

/-- **C7** (counterexample).  A reflected operation whose return type is
`None` (`def do_nothing(self) -> None` on class `Other`) produces *no*
transition at all: `_analyze_function` returns before creating one
(`if rt is None or rt is type(None): return`), the reflector state is
unchanged, and in particular no "no-return" sentinel node exists anywhere in
the graph (every producer list stays empty). -/
theorem c7_void_method_creates_no_transition :
    Reflector.analyzeFunction stOther doNothingFunc (some (.cls "Other")) = stOther ∧
    stOther.nodes.all (fun p => p.2.producers.isEmpty) = true := by
  exact ⟨by decide, rfl⟩

/-- **C7** (amended).  For every reflected operation (other than `__init__`)
whose resolved return annotation is void/`None`, the reflector creates no
`Transition` whatsoever and leaves its state untouched; there is no no-return
sentinel node in this reflector (the separate `Domain` graph in
`domain/core.py` has one, but the `Reflector` used by the generator does
not). -/
theorem c7_void_return_skipped (st : ReflectorState) (f : FuncDef)
    (owner : Option PyType) (h : Hints) (hh : f.hints = some h)
    (hr : h.ret = some none) (hn : f.name ≠ "__init__") :
    Reflector.analyzeFunction st f owner = st := by
  unfold Reflector.analyzeFunction
  by_cases hstart : (startsWithUnderscore f.name && !(f.name = "__init__")) = true
  · simp [hstart]
  · simp only [hstart, Bool.false_eq_true, if_false, hh]
    simp [hn, hr]

/-- **C7** (witness for the amended theorem). -/
theorem c7_void_return_skipped_witness :
    doNothingFunc.hints = some { ret := some none, params := [] } ∧
    ({ ret := some none, params := [] } : Hints).ret = some none ∧
    doNothingFunc.name ≠ "__init__" ∧
    Reflector.analyzeFunction stOther doNothingFunc (some (.cls "Other")) = stOther :=
  ⟨rfl, rfl, by decide,
   c7_void_return_skipped stOther doNothingFunc (some (.cls "Other"))
     { ret := some none, params := [] } rfl rfl (by decide)⟩

/-- **C9** (confirmed).  `_is_symbol_epsilon` classifies a `Choice` or
`Sequence` with zero children as deriving only the empty string, for every
epsilon set; consequently `cleanup()` deletes a rule whose body is
`Choice()` and rewrites references to it to `Epsilon` (here the reference in
the middle of rule `r` disappears and the position derives the empty string:
`r` becomes `Sequence("a", "b")`). -/
theorem c9_dead_nodes_classified_epsilon :
    (∀ eps : List String,
      Grammar.isSymbolEpsilon eps (Symbol.choice []) = true ∧
      Grammar.isSymbolEpsilon eps (Symbol.sequence []) = true) ∧
    dictGet (Grammar.cleanup gDeadChoice).rules "dead" = none ∧
    dictGet (Grammar.cleanup gDeadChoice).rules "r" =
      some (Symbol.sequence [Symbol.terminal "a" false, Symbol.terminal "b" false]) := by
  refine ⟨fun eps => ⟨rfl, rfl⟩, rfl, rfl⟩

/-- **C9** (witness). -/
theorem c9_dead_nodes_classified_epsilon_witness :
    Grammar.isSymbolEpsilon [] (Symbol.choice []) = true ∧
    dictGet (Grammar.cleanup gDeadChoice).rules "dead" = none :=
  ⟨(c9_dead_nodes_classified_epsilon.1 []).1, c9_dead_nodes_classified_epsilon.2.1⟩

/-- **C10** (confirmed).  The root option for a function entrypoint named
`load` is located by scanning all nodes for the first producer whose name is
`load`: with class `A` (carrying a *method* also named `load`) discovered
before `B` (the return type of the entrypoint function), the scan returns
`A`'s method transition, and the constructed root option continues with
`A_Pipeline` instead of the entrypoint's own `B_Pipeline`. -/
theorem c10_function_root_head_found_by_name :
    findFunctionTarget nodesC10 "load" = some (nodeA, trLoadMethodA) ∧
    trLoadMethodA ≠ trLoadFunctionB ∧
    trLoadFunctionB ∈ nodeB.producers ∧
    buildFunctionRootOption pythonLang domEmpty 3 genState0 nodesC10 "load" =
      .ok (genState0,
        some (Symbol.sequence
          [Symbol.terminal "load(" false, Symbol.terminal ")" false,
           Symbol.nonTerminal "A_Pipeline"])) := by
  refine ⟨rfl, by decide, by decide, rfl⟩

/-! ## Structural lemmas about epsilon-elimination -/

theorem Grammar.pruneList_eq_map (eps : List String) (l : List Symbol) :
    Grammar.pruneList eps l = l.map (Grammar.pruneSymbol eps) := by
  induction l with
  | nil => rfl
  | cons s rest ih => simp [Grammar.pruneList, ih]

theorem Grammar.allEpsilon_eq_all (eps : List String) (l : List Symbol) :
    Grammar.allEpsilon eps l = l.all (Grammar.isSymbolEpsilon eps) := by
  induction l with
  | nil => rfl
  | cons s rest ih => simp [Grammar.allEpsilon, ih]

theorem Symbol.refsList_eq_flatMap (l : List Symbol) :
    Symbol.refsList l = l.flatMap Symbol.refs := by
  induction l with
  | nil => rfl
  | cons s rest ih => simp [Symbol.refsList, ih]

theorem Grammar.pruneSymbol_sequence (eps : List String) (items : List Symbol) :
    Grammar.pruneSymbol eps (.sequence items) =
      match (items.map (Grammar.pruneSymbol eps)).filter
          (fun s => !s.isEpsilonNode) with
      | [] => Symbol.epsilon
      | [x] => x
      | xs => Symbol.sequence xs := by
  rw [Grammar.pruneSymbol, Grammar.pruneList_eq_map]

theorem Grammar.pruneSymbol_choice (eps : List String) (opts : List Symbol) :
    Grammar.pruneSymbol eps (.choice opts) =
      (if ((opts.map (Grammar.pruneSymbol eps)).filter
            (fun s => !s.isEpsilonNode)).isEmpty then Symbol.epsilon
       else
         match
           (if ((opts.map (Grammar.pruneSymbol eps)).any (fun s => s.isEpsilonNode) &&
                !(((opts.map (Grammar.pruneSymbol eps)).filter
                    (fun s => !s.isEpsilonNode)).any (fun s => s.isEpsilonNode))) then
              ((opts.map (Grammar.pruneSymbol eps)).filter
                (fun s => !s.isEpsilonNode)) ++ [Symbol.epsilon]
            else
              ((opts.map (Grammar.pruneSymbol eps)).filter
                (fun s => !s.isEpsilonNode)))
         with
         | [x] => x
         | xs => Symbol.choice xs) := by
  rw [Grammar.pruneSymbol, Grammar.pruneList_eq_map]

/-- A pruned symbol that is the `Epsilon` node came from an epsilon-classified
symbol. -/
theorem Grammar.isSymbolEpsilon_of_prune_epsilon :
    ∀ s : Symbol, ∀ eps : List String,
      Grammar.pruneSymbol eps s = .epsilon → Grammar.isSymbolEpsilon eps s = true := by
  intro s
  induction s using Symbol.strongInd with
  | ht v r => intro eps h; simp [Grammar.pruneSymbol] at h
  | hn n =>
    intro eps h
    simp only [Grammar.pruneSymbol] at h
    by_cases hc : eps.contains n = true
    · simp only [Grammar.isSymbolEpsilon]
      exact hc
    · rw [if_neg hc] at h
      simp at h
  | he => intro eps h; rfl
  | hs items ih =>
    intro eps h
    rw [Grammar.pruneSymbol_sequence] at h
    rcases hfil : (items.map (Grammar.pruneSymbol eps)).filter
        (fun s => !s.isEpsilonNode) with _ | ⟨x, xs⟩
    · -- every pruned item is the epsilon node
      simp only [Grammar.isSymbolEpsilon, Grammar.allEpsilon_eq_all]
      rcases items with _ | ⟨i, itail⟩
      · rfl
      · simp only [List.isEmpty_cons, Bool.false_or]
        rw [List.all_eq_true]
        intro x hx
        have hxf : Grammar.pruneSymbol eps x ∈
            ((i :: itail).map (Grammar.pruneSymbol eps)).filter
              (fun s => !s.isEpsilonNode) ∨
            (Grammar.pruneSymbol eps x).isEpsilonNode = true := by
          by_cases hmem : (Grammar.pruneSymbol eps x).isEpsilonNode = true
          · exact Or.inr hmem
          · refine Or.inl (List.mem_filter.mpr ⟨List.mem_map_of_mem _ hx, ?_⟩)
            simp [hmem]
        rcases hxf with hxf | hxf
        · rw [hfil] at hxf
          simp at hxf
        · have hpe : Grammar.pruneSymbol eps x = Symbol.epsilon := by
            cases hpx : Grammar.pruneSymbol eps x <;>
              simp [hpx, Symbol.isEpsilonNode] at hxf ⊢
          exact ih x hx eps hpe
    · have hxne : x.isEpsilonNode = false := by
        have hxmem : x ∈ (items.map (Grammar.pruneSymbol eps)).filter
            (fun s => !s.isEpsilonNode) := by rw [hfil]; simp
        simpa using (List.mem_filter.mp hxmem).2
      rw [hfil] at h
      rcases xs with _ | ⟨y, ys⟩
      · simp at h
        rw [h] at hxne
        simp [Symbol.isEpsilonNode] at hxne
      · simp at h
  | hc opts ih =>
    intro eps h
    rw [Grammar.pruneSymbol_choice] at h
    rcases hfil : (opts.map (Grammar.pruneSymbol eps)).filter
        (fun s => !s.isEpsilonNode) with _ | ⟨x, xs⟩
    · -- all options pruned to epsilon
      simp only [Grammar.isSymbolEpsilon, Grammar.allEpsilon_eq_all]
      rcases opts with _ | ⟨o, otail⟩
      · rfl
      · simp only [List.isEmpty_cons, Bool.false_or]
        rw [List.all_eq_true]
        intro x hx
        have hxf : Grammar.pruneSymbol eps x ∈
            ((o :: otail).map (Grammar.pruneSymbol eps)).filter
              (fun s => !s.isEpsilonNode) ∨
            (Grammar.pruneSymbol eps x).isEpsilonNode = true := by
          by_cases hmem : (Grammar.pruneSymbol eps x).isEpsilonNode = true
          · exact Or.inr hmem
          · refine Or.inl (List.mem_filter.mpr ⟨List.mem_map_of_mem _ hx, ?_⟩)
            simp [hmem]
        rcases hxf with hxf | hxf
        · rw [hfil] at hxf
          simp at hxf
        · have hpe : Grammar.pruneSymbol eps x = Symbol.epsilon := by
            cases hpx : Grammar.pruneSymbol eps x <;>
              simp [hpx, Symbol.isEpsilonNode] at hxf ⊢
          exact ih x hx eps hpe
    · have hxne : x.isEpsilonNode = false := by
        have hxmem : x ∈ (opts.map (Grammar.pruneSymbol eps)).filter
            (fun s => !s.isEpsilonNode) := by rw [hfil]; simp
        simpa using (List.mem_filter.mp hxmem).2
      rw [hfil] at h
      simp only [List.isEmpty_cons, Bool.false_eq_true, if_false] at h
      by_cases heps : ((opts.map (Grammar.pruneSymbol eps)).any
          (fun s => s.isEpsilonNode) &&
          !((x :: xs).any (fun s => s.isEpsilonNode))) = true
      · rw [if_pos heps] at h
        rcases xs with _ | ⟨y, ys⟩ <;> simp at h
      · rw [if_neg heps] at h
        rcases xs with _ | ⟨y, ys⟩
        · simp at h
          rw [h] at hxne
          simp [Symbol.isEpsilonNode] at hxne
        · simp at h

theorem Symbol.isEpsilonNode_false_iff (s : Symbol) :
    s.isEpsilonNode = false ↔ s ≠ .epsilon := by
  cases s <;> simp [Symbol.isEpsilonNode]

/-- Elements surviving the prune-and-filter step are prunings of original
children and are not the epsilon node. -/
theorem Grammar.mem_prune_filter {eps : List String} {l : List Symbol} {x : Symbol}
    (hx : x ∈ (l.map (Grammar.pruneSymbol eps)).filter (fun s => !s.isEpsilonNode)) :
    ∃ i ∈ l, Grammar.pruneSymbol eps i = x ∧ x ≠ Symbol.epsilon := by
  obtain ⟨hmap, hf⟩ := List.mem_filter.mp hx
  obtain ⟨i, hi, hieq⟩ := List.mem_map.mp hmap
  refine ⟨i, hi, hieq, ?_⟩
  intro hcon
  rw [hcon] at hf
  simp [Symbol.isEpsilonNode] at hf

theorem map_id_of_mem {α : Type} (l : List α) (f : α → α)
    (h : ∀ x ∈ l, f x = x) : l.map f = l := by
  induction l with
  | nil => rfl
  | cons x rest ih =>
    simp only [List.map_cons, h x (by simp)]
    rw [ih (fun y hy => h y (by simp [hy]))]

theorem all_congr_of_mem {α : Type} (l : List α) (p q : α → Bool)
    (h : ∀ x ∈ l, p x = q x) : l.all p = l.all q := by
  induction l with
  | nil => rfl
  | cons x rest ih =>
    simp only [List.all_cons, h x (by simp)]
    rw [ih (fun y hy => h y (by simp [hy]))]

/-- A pruned body that is not the epsilon node is not classified epsilon with
respect to the empty epsilon set. -/
theorem Grammar.prune_not_epsilon_wrt_nil :
    ∀ s : Symbol, ∀ eps : List String,
      Grammar.pruneSymbol eps s ≠ .epsilon →
      Grammar.isSymbolEpsilon [] (Grammar.pruneSymbol eps s) = false := by
  intro s
  induction s using Symbol.strongInd with
  | ht v r => intro eps _; rfl
  | hn n =>
    intro eps h
    simp only [Grammar.pruneSymbol] at h ⊢
    by_cases hc : eps.contains n = true
    · rw [if_pos hc] at h; exact absurd rfl h
    · rw [if_neg hc]
      rfl
  | he => intro eps h; exact absurd rfl h
  | hs items ih =>
    intro eps h
    rw [Grammar.pruneSymbol_sequence] at h ⊢
    rcases hfil : (items.map (Grammar.pruneSymbol eps)).filter
        (fun s => !s.isEpsilonNode) with _ | ⟨x, xs⟩
    · rw [hfil] at h; exact absurd rfl h
    · have hx : Grammar.isSymbolEpsilon [] x = false := by
        obtain ⟨i, hi, hieq, hxne⟩ := Grammar.mem_prune_filter (by rw [hfil]; simp :
          x ∈ (items.map (Grammar.pruneSymbol eps)).filter (fun s => !s.isEpsilonNode))
        rw [← hieq]
        exact ih i hi eps (by rw [hieq]; exact hxne)
      rw [hfil]
      rcases xs with _ | ⟨y, ys⟩
      · exact hx
      · simp [Grammar.isSymbolEpsilon, Grammar.allEpsilon_eq_all, hx]
  | hc opts ih =>
    intro eps h
    rw [Grammar.pruneSymbol_choice] at h ⊢
    rcases hfil : (opts.map (Grammar.pruneSymbol eps)).filter
        (fun s => !s.isEpsilonNode) with _ | ⟨x, xs⟩
    · rw [hfil] at h
      exact absurd rfl h
    · have hx : Grammar.isSymbolEpsilon [] x = false := by
        obtain ⟨i, hi, hieq, hxne⟩ := Grammar.mem_prune_filter (by rw [hfil]; simp :
          x ∈ (opts.map (Grammar.pruneSymbol eps)).filter (fun s => !s.isEpsilonNode))
        rw [← hieq]
        exact ih i hi eps (by rw [hieq]; exact hxne)
      rw [hfil] at h ⊢
      simp only [List.isEmpty_cons, Bool.false_eq_true, if_false] at h ⊢
      by_cases heps : ((opts.map (Grammar.pruneSymbol eps)).any
          (fun s => s.isEpsilonNode) &&
          !((x :: xs).any (fun s => s.isEpsilonNode))) = true
      · rw [if_pos heps]
        rcases xs with _ | ⟨y, ys⟩ <;>
          simp [Grammar.isSymbolEpsilon, Grammar.allEpsilon_eq_all, hx]
      · rw [if_neg heps]
        rcases xs with _ | ⟨y, ys⟩
        · exact hx
        · simp [Grammar.isSymbolEpsilon, Grammar.allEpsilon_eq_all, hx]

/-- Pruning with the empty epsilon set fixes a sequence of two or more
non-epsilon fixed points. -/
theorem Grammar.prune_nil_sequence_keepers (x y : Symbol) (ys : List Symbol)
    (hkeep : ∀ z ∈ x :: y :: ys, Grammar.pruneSymbol [] z = z ∧
      z.isEpsilonNode = false) :
    Grammar.pruneSymbol [] (Symbol.sequence (x :: y :: ys)) =
      Symbol.sequence (x :: y :: ys) := by
  rw [Grammar.pruneSymbol_sequence]
  rw [map_id_of_mem _ _ (fun z hz => (hkeep z hz).1)]
  rw [List.filter_eq_self.mpr (fun z hz => by simp [(hkeep z hz).2])]

/-- Pruning with the empty epsilon set fixes a choice of two or more
non-epsilon fixed points. -/
theorem Grammar.prune_nil_choice_keepers (x y : Symbol) (ys : List Symbol)
    (hkeep : ∀ z ∈ x :: y :: ys, Grammar.pruneSymbol [] z = z ∧
      z.isEpsilonNode = false) :
    Grammar.pruneSymbol [] (Symbol.choice (x :: y :: ys)) =
      Symbol.choice (x :: y :: ys) := by
  have hanyKeep : (x :: y :: ys).any (fun s => s.isEpsilonNode) = false := by
    rw [List.any_eq_false]
    intro z hz
    simp [(hkeep z hz).2]
  rw [Grammar.pruneSymbol_choice]
  rw [map_id_of_mem _ _ (fun z hz => (hkeep z hz).1)]
  rw [List.filter_eq_self.mpr (fun z hz => by simp [(hkeep z hz).2])]
  rw [hanyKeep]
  simp

/-- Pruning with the empty epsilon set fixes a choice of non-epsilon fixed
points followed by the canonical trailing epsilon option. -/
theorem Grammar.prune_nil_choice_append_epsilon (x : Symbol) (xs : List Symbol)
    (hkeep : ∀ z ∈ x :: xs, Grammar.pruneSymbol [] z = z ∧
      z.isEpsilonNode = false) :
    Grammar.pruneSymbol [] (Symbol.choice ((x :: xs) ++ [Symbol.epsilon])) =
      Symbol.choice ((x :: xs) ++ [Symbol.epsilon]) := by
  have hlist : ∀ z ∈ (x :: xs) ++ [Symbol.epsilon],
      Grammar.pruneSymbol [] z = z := by
    intro z hz
    rcases List.mem_append.mp hz with hz | hz
    · exact (hkeep z hz).1
    · simp at hz
      rw [hz]
      rfl
  have hfil2 : ((x :: xs) ++ [Symbol.epsilon]).filter
      (fun s => !s.isEpsilonNode) = x :: xs := by
    rw [List.filter_append]
    rw [List.filter_eq_self.mpr (fun z hz => by simp [(hkeep z hz).2])]
    simp [Symbol.isEpsilonNode]
  have hany2 : ((x :: xs) ++ [Symbol.epsilon]).any
      (fun s => s.isEpsilonNode) = true := by
    simp [Symbol.isEpsilonNode]
  have hanyKeep : (x :: xs).any (fun s => s.isEpsilonNode) = false := by
    rw [List.any_eq_false]
    intro z hz
    simp [(hkeep z hz).2]
  rw [Grammar.pruneSymbol_choice]
  rw [map_id_of_mem _ _ hlist, hfil2, hany2, hanyKeep]
  rcases xs with _ | ⟨y, ys⟩ <;> simp

/-- Pruning with respect to the empty set is the identity on pruned
bodies. -/
theorem Grammar.prune_nil_prune :
    ∀ s : Symbol, ∀ eps : List String,
      Grammar.pruneSymbol [] (Grammar.pruneSymbol eps s) =
        Grammar.pruneSymbol eps s := by
  intro s
  induction s using Symbol.strongInd with
  | ht v r => intro eps; rfl
  | hn n =>
    intro eps
    simp only [Grammar.pruneSymbol]
    by_cases hc : eps.contains n = true
    · rw [if_pos hc]
      rfl
    · rw [if_neg hc]
      simp only [Grammar.pruneSymbol]
      rfl
  | he => intro eps; rfl
  | hs items ih =>
    intro eps
    rw [Grammar.pruneSymbol_sequence]
    rcases hfil : (items.map (Grammar.pruneSymbol eps)).filter
        (fun s => !s.isEpsilonNode) with _ | ⟨x, xs⟩
    · rw [hfil]
      rfl
    · have hkeep : ∀ z ∈ x :: xs, Grammar.pruneSymbol [] z = z ∧
          z.isEpsilonNode = false := by
        intro z hz
        obtain ⟨i, hi, hieq, hzne⟩ := Grammar.mem_prune_filter (by rw [hfil]; exact hz :
          z ∈ (items.map (Grammar.pruneSymbol eps)).filter (fun s => !s.isEpsilonNode))
        exact ⟨by rw [← hieq]; exact ih i hi eps, (Symbol.isEpsilonNode_false_iff z).mpr hzne⟩
      rw [hfil]
      rcases xs with _ | ⟨y, ys⟩
      · exact (hkeep x (by simp)).1
      · exact Grammar.prune_nil_sequence_keepers x y ys hkeep
  | hc opts ih =>
    intro eps
    rw [Grammar.pruneSymbol_choice]
    rcases hfil : (opts.map (Grammar.pruneSymbol eps)).filter
        (fun s => !s.isEpsilonNode) with _ | ⟨x, xs⟩
    · rw [hfil]
      rfl
    · have hkeep : ∀ z ∈ x :: xs, Grammar.pruneSymbol [] z = z ∧
          z.isEpsilonNode = false := by
        intro z hz
        obtain ⟨i, hi, hieq, hzne⟩ := Grammar.mem_prune_filter (by rw [hfil]; exact hz :
          z ∈ (opts.map (Grammar.pruneSymbol eps)).filter (fun s => !s.isEpsilonNode))
        exact ⟨by rw [← hieq]; exact ih i hi eps, (Symbol.isEpsilonNode_false_iff z).mpr hzne⟩
      rw [hfil]
      simp only [List.isEmpty_cons, Bool.false_eq_true, if_false]
      by_cases heps : ((opts.map (Grammar.pruneSymbol eps)).any
          (fun s => s.isEpsilonNode) &&
          !((x :: xs).any (fun s => s.isEpsilonNode))) = true
      · rw [if_pos heps]
        rcases xs with _ | ⟨y, ys⟩
        · exact Grammar.prune_nil_choice_append_epsilon x [] hkeep
        · exact Grammar.prune_nil_choice_append_epsilon x (y :: ys) hkeep
      · rw [if_neg heps]
        rcases xs with _ | ⟨y, ys⟩
        · exact (hkeep x (by simp)).1
        · exact Grammar.prune_nil_choice_keepers x y ys hkeep

theorem map_congr_of_mem {α β : Type} (l : List α) (f g : α → β)
    (h : ∀ x ∈ l, f x = g x) : l.map f = l.map g := by
  induction l with
  | nil => rfl
  | cons x rest ih =>
    simp only [List.map_cons, h x (by simp)]
    rw [ih (fun y hy => h y (by simp [hy]))]

/-- Pruning removes every reference to a name in the epsilon set. -/
theorem Grammar.not_mem_refs_prune :
    ∀ s : Symbol, ∀ eps : List String, ∀ n : String,
      eps.contains n = true → n ∉ (Grammar.pruneSymbol eps s).refs := by
  intro s
  induction s using Symbol.strongInd with
  | ht v r => intro eps n _; simp [Grammar.pruneSymbol, Symbol.refs]
  | hn m =>
    intro eps n hn'
    simp only [Grammar.pruneSymbol]
    by_cases hc : eps.contains m = true
    · rw [if_pos hc]
      simp [Symbol.refs]
    · rw [if_neg hc]
      simp only [Symbol.refs, List.mem_singleton]
      intro heq
      rw [heq] at hn'
      exact hc hn'
  | he => intro eps n _; simp [Grammar.pruneSymbol, Symbol.refs]
  | hs items ih =>
    intro eps n hn'
    rw [Grammar.pruneSymbol_sequence]
    rcases hfil : (items.map (Grammar.pruneSymbol eps)).filter
        (fun s => !s.isEpsilonNode) with _ | ⟨x, xs⟩
    · rw [hfil]
      simp [Symbol.refs]
    · have key : ∀ z ∈ x :: xs, n ∉ (z : Symbol).refs := by
        intro z hz
        obtain ⟨i, hi, hieq, _⟩ := Grammar.mem_prune_filter (by rw [hfil]; exact hz :
          z ∈ (items.map (Grammar.pruneSymbol eps)).filter (fun s => !s.isEpsilonNode))
        rw [← hieq]
        exact ih i hi eps n hn'
      rw [hfil]
      rcases xs with _ | ⟨y, ys⟩
      · exact key x (by simp)
      · show n ∉ (Symbol.sequence (x :: y :: ys)).refs
        simp only [Symbol.refs, Symbol.refsList_eq_flatMap, List.mem_flatMap]
        rintro ⟨z, hz, hzr⟩
        exact key z hz hzr
  | hc opts ih =>
    intro eps n hn'
    rw [Grammar.pruneSymbol_choice]
    rcases hfil : (opts.map (Grammar.pruneSymbol eps)).filter
        (fun s => !s.isEpsilonNode) with _ | ⟨x, xs⟩
    · rw [hfil]
      simp [Symbol.refs]
    · have key : ∀ z ∈ x :: xs, n ∉ (z : Symbol).refs := by
        intro z hz
        obtain ⟨i, hi, hieq, _⟩ := Grammar.mem_prune_filter (by rw [hfil]; exact hz :
          z ∈ (opts.map (Grammar.pruneSymbol eps)).filter (fun s => !s.isEpsilonNode))
        rw [← hieq]
        exact ih i hi eps n hn'
      rw [hfil]
      simp only [List.isEmpty_cons, Bool.false_eq_true, if_false]
      have key2 : ∀ z ∈ (x :: xs) ++ [Symbol.epsilon], n ∉ (z : Symbol).refs := by
        intro z hz
        rcases List.mem_append.mp hz with hz | hz
        · exact key z hz
        · simp at hz
          rw [hz]
          simp [Symbol.refs]
      by_cases heps : ((opts.map (Grammar.pruneSymbol eps)).any
          (fun s => s.isEpsilonNode) &&
          !((x :: xs).any (fun s => s.isEpsilonNode))) = true
      · rw [if_pos heps]
        rcases xs with _ | ⟨y, ys⟩
        · show n ∉ (Symbol.choice ((x :: []) ++ [Symbol.epsilon])).refs
          simp only [Symbol.refs, Symbol.refsList_eq_flatMap, List.mem_flatMap]
          rintro ⟨z, hz, hzr⟩
          exact key2 z hz hzr
        · show n ∉ (Symbol.choice ((x :: y :: ys) ++ [Symbol.epsilon])).refs
          simp only [Symbol.refs, Symbol.refsList_eq_flatMap, List.mem_flatMap]
          rintro ⟨z, hz, hzr⟩
          exact key2 z hz hzr
      · rw [if_neg heps]
        rcases xs with _ | ⟨y, ys⟩
        · exact key x (by simp)
        · show n ∉ (Symbol.choice (x :: y :: ys)).refs
          simp only [Symbol.refs, Symbol.refsList_eq_flatMap, List.mem_flatMap]
          rintro ⟨z, hz, hzr⟩
          exact key z hz hzr

/-- Pruning only removes references: the pruned body's references are among
the original body's. -/
theorem Grammar.refs_prune_subset :
    ∀ s : Symbol, ∀ eps : List String, ∀ n : String,
      n ∈ (Grammar.pruneSymbol eps s).refs → n ∈ s.refs := by
  intro s
  induction s using Symbol.strongInd with
  | ht v r => intro eps n h; simp [Grammar.pruneSymbol, Symbol.refs] at h
  | hn m =>
    intro eps n h
    simp only [Grammar.pruneSymbol] at h
    by_cases hc : eps.contains m = true
    · rw [if_pos hc] at h
      simp [Symbol.refs] at h
    · rw [if_neg hc] at h
      exact h
  | he => intro eps n h; simp [Grammar.pruneSymbol, Symbol.refs] at h
  | hs items ih =>
    intro eps n h
    rw [Grammar.pruneSymbol_sequence] at h
    have key : ∀ z ∈ (items.map (Grammar.pruneSymbol eps)).filter
        (fun s => !s.isEpsilonNode), ∀ m ∈ (z : Symbol).refs,
        m ∈ Symbol.refs (.sequence items) := by
      intro z hz m hm
      obtain ⟨i, hi, hieq, _⟩ := Grammar.mem_prune_filter hz
      simp only [Symbol.refs, Symbol.refsList_eq_flatMap, List.mem_flatMap]
      exact ⟨i, hi, ih i hi eps m (by rw [hieq]; exact hm)⟩
    rcases hfil : (items.map (Grammar.pruneSymbol eps)).filter
        (fun s => !s.isEpsilonNode) with _ | ⟨x, xs⟩
    · rw [hfil] at h
      simp [Symbol.refs] at h
    · rw [hfil] at h key
      rcases xs with _ | ⟨y, ys⟩
      · exact key x (by simp) n h
      · have h' : n ∈ (Symbol.sequence (x :: y :: ys)).refs := h
        simp only [Symbol.refs, Symbol.refsList_eq_flatMap, List.mem_flatMap] at h'
        obtain ⟨z, hz, hzr⟩ := h'
        exact key z hz n hzr
  | hc opts ih =>
    intro eps n h
    rw [Grammar.pruneSymbol_choice] at h
    have key : ∀ z ∈ (opts.map (Grammar.pruneSymbol eps)).filter
        (fun s => !s.isEpsilonNode), ∀ m ∈ (z : Symbol).refs,
        m ∈ Symbol.refs (.choice opts) := by
      intro z hz m hm
      obtain ⟨i, hi, hieq, _⟩ := Grammar.mem_prune_filter hz
      simp only [Symbol.refs, Symbol.refsList_eq_flatMap, List.mem_flatMap]
      exact ⟨i, hi, ih i hi eps m (by rw [hieq]; exact hm)⟩
    rcases hfil : (opts.map (Grammar.pruneSymbol eps)).filter
        (fun s => !s.isEpsilonNode) with _ | ⟨x, xs⟩
    · rw [hfil] at h
      simp [Symbol.refs] at h
    · rw [hfil] at h key
      simp only [List.isEmpty_cons, Bool.false_eq_true, if_false] at h
      have key2 : ∀ z ∈ (x :: xs) ++ [Symbol.epsilon], ∀ m ∈ (z : Symbol).refs,
          m ∈ Symbol.refs (.choice opts) := by
        intro z hz m hm
        rcases List.mem_append.mp hz with hz | hz
        · exact key z hz m hm
        · simp at hz
          rw [hz] at hm
          simp [Symbol.refs] at hm
      by_cases heps : ((opts.map (Grammar.pruneSymbol eps)).any
          (fun s => s.isEpsilonNode) &&
          !((x :: xs).any (fun s => s.isEpsilonNode))) = true
      · rw [if_pos heps] at h
        rcases xs with _ | ⟨y, ys⟩
        · have h' : n ∈ (Symbol.choice ((x :: []) ++ [Symbol.epsilon])).refs := h
          simp only [Symbol.refs, Symbol.refsList_eq_flatMap, List.mem_flatMap] at h'
          obtain ⟨z, hz, hzr⟩ := h'
          exact key2 z hz n hzr
        · have h' : n ∈ (Symbol.choice ((x :: y :: ys) ++ [Symbol.epsilon])).refs := h
          simp only [Symbol.refs, Symbol.refsList_eq_flatMap, List.mem_flatMap] at h'
          obtain ⟨z, hz, hzr⟩ := h'
          exact key2 z hz n hzr
      · rw [if_neg heps] at h
        rcases xs with _ | ⟨y, ys⟩
        · exact key x (by simp) n h
        · have h' : n ∈ (Symbol.choice (x :: y :: ys)).refs := h
          simp only [Symbol.refs, Symbol.refsList_eq_flatMap, List.mem_flatMap] at h'
          obtain ⟨z, hz, hzr⟩ := h'
          exact key z hz n hzr

/-- Epsilon classification only depends on the epsilon set through the
body's references. -/
theorem Grammar.isSymbolEpsilon_congr_nil :
    ∀ s : Symbol, ∀ eps : List String,
      (∀ n ∈ (s : Symbol).refs, eps.contains n = false) →
      Grammar.isSymbolEpsilon eps s = Grammar.isSymbolEpsilon [] s := by
  intro s
  induction s using Symbol.strongInd with
  | ht v r => intro eps _; rfl
  | hn m =>
    intro eps h
    simp only [Grammar.isSymbolEpsilon]
    rw [h m (by simp [Symbol.refs])]
    rfl
  | he => intro eps _; rfl
  | hs items ih =>
    intro eps h
    simp only [Grammar.isSymbolEpsilon, Grammar.allEpsilon_eq_all]
    rw [all_congr_of_mem items _ _ (fun z hz => ih z hz eps (fun n hn' =>
      h n (by
        simp only [Symbol.refs, Symbol.refsList_eq_flatMap, List.mem_flatMap]
        exact ⟨z, hz, hn'⟩)))]
  | hc opts ih =>
    intro eps h
    simp only [Grammar.isSymbolEpsilon, Grammar.allEpsilon_eq_all]
    rw [all_congr_of_mem opts _ _ (fun z hz => ih z hz eps (fun n hn' =>
      h n (by
        simp only [Symbol.refs, Symbol.refsList_eq_flatMap, List.mem_flatMap]
        exact ⟨z, hz, hn'⟩)))]

/-- Pruning only depends on the epsilon set through the body's
references. -/
theorem Grammar.prune_congr_nil :
    ∀ s : Symbol, ∀ eps : List String,
      (∀ n ∈ (s : Symbol).refs, eps.contains n = false) →
      Grammar.pruneSymbol eps s = Grammar.pruneSymbol [] s := by
  intro s
  induction s using Symbol.strongInd with
  | ht v r => intro eps _; rfl
  | hn m =>
    intro eps h
    simp only [Grammar.pruneSymbol]
    rw [h m (by simp [Symbol.refs])]
    rfl
  | he => intro eps _; rfl
  | hs items ih =>
    intro eps h
    rw [Grammar.pruneSymbol_sequence, Grammar.pruneSymbol_sequence]
    rw [map_congr_of_mem items _ _ (fun z hz => ih z hz eps (fun n hn' =>
      h n (by
        simp only [Symbol.refs, Symbol.refsList_eq_flatMap, List.mem_flatMap]
        exact ⟨z, hz, hn'⟩)))]
  | hc opts ih =>
    intro eps h
    rw [Grammar.pruneSymbol_choice, Grammar.pruneSymbol_choice]
    rw [map_congr_of_mem opts _ _ (fun z hz => ih z hz eps (fun n hn' =>
      h n (by
        simp only [Symbol.refs, Symbol.refsList_eq_flatMap, List.mem_flatMap]
        exact ⟨z, hz, hn'⟩)))]

/-! ## The epsilon fixed-point loop -/

theorem contains_false_iff (l : List String) (n : String) :
    l.contains n = false ↔ n ∉ l := by
  simp

theorem Grammar.epsPassStep_prefix (eps : List String) (r : String × Symbol) :
    eps <+: Grammar.epsPassStep eps r := by
  unfold Grammar.epsPassStep
  by_cases h1 : eps.contains r.1 = true
  · rw [if_pos h1]
  · rw [if_neg h1]
    by_cases h2 : Grammar.isSymbolEpsilon eps r.2 = true
    · rw [if_pos h2]
      exact ⟨[r.1], rfl⟩
    · rw [if_neg h2]

theorem Grammar.epsPass_cons (r : String × Symbol) (rest : List (String × Symbol))
    (eps : List String) :
    Grammar.epsPass (r :: rest) eps =
      Grammar.epsPass rest (Grammar.epsPassStep eps r) := rfl

theorem Grammar.epsPass_prefix (rules : List (String × Symbol)) :
    ∀ eps, eps <+: Grammar.epsPass rules eps := by
  induction rules with
  | nil => intro eps; exact List.prefix_rfl
  | cons r rest ih =>
    intro eps
    rw [Grammar.epsPass_cons]
    exact (Grammar.epsPassStep_prefix eps r).trans (ih _)

theorem Grammar.epsPass_fixed_not_epsilon (rules : List (String × Symbol)) :
    ∀ eps, Grammar.epsPass rules eps = eps →
      ∀ p ∈ rules, eps.contains p.1 = false →
        Grammar.isSymbolEpsilon eps p.2 = false := by
  induction rules with
  | nil => intro eps _ p hp; simp at hp
  | cons r rest ih =>
    intro eps hfix p hp hpc
    rw [Grammar.epsPass_cons] at hfix
    have hstep : Grammar.epsPassStep eps r = eps := by
      have h1 := Grammar.epsPassStep_prefix eps r
      have h2 := Grammar.epsPass_prefix rest (Grammar.epsPassStep eps r)
      rw [hfix] at h2
      exact h2.eq_of_length (Nat.le_antisymm h2.length_le h1.length_le)
    rw [hstep] at hfix
    rcases List.mem_cons.mp hp with hp | hp
    · subst hp
      unfold Grammar.epsPassStep at hstep
      rw [if_neg (by rw [hpc]; simp)] at hstep
      by_cases hse : Grammar.isSymbolEpsilon eps p.2 = true
      · rw [if_pos hse] at hstep
        exact absurd (congrArg List.length hstep) (by simp)
      · simpa using hse
    · exact ih eps hfix p hp hpc

theorem Grammar.epsPassStep_subset (eps : List String) (r : String × Symbol)
    (n : String) (h : n ∈ Grammar.epsPassStep eps r) : n ∈ eps ∨ n = r.1 := by
  unfold Grammar.epsPassStep at h
  by_cases h1 : eps.contains r.1 = true
  · rw [if_pos h1] at h
    exact Or.inl h
  · rw [if_neg h1] at h
    by_cases h2 : Grammar.isSymbolEpsilon eps r.2 = true
    · rw [if_pos h2] at h
      rcases List.mem_append.mp h with h | h
      · exact Or.inl h
      · simp at h
        exact Or.inr h
    · rw [if_neg h2] at h
      exact Or.inl h

theorem Grammar.epsPass_subset (rules : List (String × Symbol)) :
    ∀ eps n, n ∈ Grammar.epsPass rules eps →
      n ∈ eps ∨ n ∈ rules.map Prod.fst := by
  induction rules with
  | nil => intro eps n h; exact Or.inl h
  | cons r rest ih =>
    intro eps n h
    rw [Grammar.epsPass_cons] at h
    rcases ih _ n h with h | h
    · rcases Grammar.epsPassStep_subset eps r n h with h | h
      · exact Or.inl h
      · exact Or.inr (by simp [h])
    · exact Or.inr (by simp [h])

theorem Grammar.epsPassStep_nodup (eps : List String) (r : String × Symbol)
    (h : eps.Nodup) : (Grammar.epsPassStep eps r).Nodup := by
  unfold Grammar.epsPassStep
  by_cases h1 : eps.contains r.1 = true
  · rw [if_pos h1]
    exact h
  · rw [if_neg h1]
    by_cases h2 : Grammar.isSymbolEpsilon eps r.2 = true
    · rw [if_pos h2]
      refine List.Nodup.append h (by simp) ?_
      intro a ha hb
      simp at hb
      rw [hb] at ha
      exact ((contains_false_iff eps r.1).mp (by simpa using h1)) ha
    · rw [if_neg h2]
      exact h

theorem Grammar.epsPass_nodup (rules : List (String × Symbol)) :
    ∀ eps, eps.Nodup → (Grammar.epsPass rules eps).Nodup := by
  induction rules with
  | nil => intro eps h; exact h
  | cons r rest ih =>
    intro eps h
    rw [Grammar.epsPass_cons]
    exact ih _ (Grammar.epsPassStep_nodup eps r h)

theorem Grammar.epsLoop_fixed (rules : List (String × Symbol)) :
    ∀ fuel eps, eps.Nodup → (∀ n ∈ eps, n ∈ rules.map Prod.fst) →
      rules.length + 1 ≤ fuel + eps.length →
      Grammar.epsPass rules (Grammar.epsLoop rules fuel eps) =
        Grammar.epsLoop rules fuel eps := by
  intro fuel
  induction fuel with
  | zero =>
    intro eps hnd hsub hlen
    exfalso
    have h1 : eps.length = eps.toFinset.card := (List.toFinset_card_of_nodup hnd).symm
    have h2 : eps.toFinset ⊆ (rules.map Prod.fst).toFinset := by
      intro x hx
      exact List.mem_toFinset.mpr (hsub x (List.mem_toFinset.mp hx))
    have h3 : eps.toFinset.card ≤ (rules.map Prod.fst).toFinset.card :=
      Finset.card_le_card h2
    have h4 : (rules.map Prod.fst).toFinset.card ≤ (rules.map Prod.fst).length :=
      (rules.map Prod.fst).toFinset_card_le
    simp only [List.length_map] at h4
    omega
  | succ fuel ih =>
    intro eps hnd hsub hlen
    show Grammar.epsPass rules (Grammar.epsLoop rules (fuel + 1) eps) = _
    unfold Grammar.epsLoop
    by_cases hch : Grammar.epsPass rules eps = eps
    · simp only [hch, if_true]
    · simp only [hch, if_false]
      refine ih (Grammar.epsPass rules eps) (Grammar.epsPass_nodup rules eps hnd)
        (fun n hn => ?_) ?_
      · rcases Grammar.epsPass_subset rules eps n hn with h | h
        · exact hsub n h
        · exact h
      · have hpre := Grammar.epsPass_prefix rules eps
        have hlt : eps.length < (Grammar.epsPass rules eps).length := by
          rcases Nat.lt_or_ge eps.length (Grammar.epsPass rules eps).length with h | h
          · exact h
          · exact absurd (hpre.eq_of_length
              (Nat.le_antisymm hpre.length_le h)).symm hch
        omega

theorem Grammar.epsilonRules_fixed (rules : List (String × Symbol)) :
    Grammar.epsPass rules (Grammar.epsilonRules rules) =
      Grammar.epsilonRules rules := by
  refine Grammar.epsLoop_fixed rules (rules.length + 1) [] (by simp) (by simp) ?_
  simp

/-- At the fixed point, a rule outside the epsilon set is genuinely not
epsilon. -/
theorem Grammar.epsilonRules_complete (rules : List (String × Symbol)) :
    ∀ p ∈ rules, (Grammar.epsilonRules rules).contains p.1 = false →
      Grammar.isSymbolEpsilon (Grammar.epsilonRules rules) p.2 = false :=
  Grammar.epsPass_fixed_not_epsilon rules _ (Grammar.epsilonRules_fixed rules)

/-- A pass over rules that are all either already in the set or not epsilon
changes nothing. -/
theorem Grammar.epsPass_keeps (rules : List (String × Symbol)) :
    ∀ eps, (∀ p ∈ rules, eps.contains p.1 = true ∨
        Grammar.isSymbolEpsilon eps p.2 = false) →
      Grammar.epsPass rules eps = eps := by
  induction rules with
  | nil => intro eps _; rfl
  | cons r rest ih =>
    intro eps h
    rw [Grammar.epsPass_cons]
    have hstep : Grammar.epsPassStep eps r = eps := by
      unfold Grammar.epsPassStep
      rcases h r (by simp) with hr | hr
      · rw [if_pos hr]
      · by_cases h1 : eps.contains r.1 = true
        · rw [if_pos h1]
        · rw [if_neg h1, if_neg (by rw [hr]; simp)]
    rw [hstep]
    exact ih eps (fun p hp => h p (by simp [hp]))

/-! ## Decomposing `Grammar.cleanup` -/

theorem mem_dictInsert (d : List (String × Symbol)) (k : String) (v : Symbol) :
    ∀ p ∈ dictInsert d k v, p ∈ d ∨ p = (k, v) := by
  induction d with
  | nil => intro p hp; simp [dictInsert] at hp; exact Or.inr hp
  | cons q rest ih =>
    intro p hp
    obtain ⟨k0, v0⟩ := q
    simp only [dictInsert] at hp
    by_cases hk : k0 = k
    · rw [if_pos hk] at hp
      rcases List.mem_cons.mp hp with hp | hp
      · exact Or.inr hp
      · exact Or.inl (by simp [hp])
    · rw [if_neg hk] at hp
      rcases List.mem_cons.mp hp with hp | hp
      · exact Or.inl (by simp [hp])
      · rcases ih p hp with h | h
        · exact Or.inl (by simp [h])
        · exact Or.inr h

theorem dictInsert_idem (d : List (String × Symbol)) (k : String) (v : Symbol) :
    dictInsert (dictInsert d k v) k v = dictInsert d k v := by
  induction d with
  | nil => simp [dictInsert]
  | cons q rest ih =>
    obtain ⟨k0, v0⟩ := q
    simp only [dictInsert]
    by_cases hk : k0 = k
    · rw [if_pos hk]
      simp [dictInsert]
    · rw [if_neg hk]
      simp only [dictInsert]
      rw [if_neg hk, ih]

theorem dictHasKey_dictInsert_self (d : List (String × Symbol)) (k : String)
    (v : Symbol) : dictHasKey (dictInsert d k v) k = true := by
  induction d with
  | nil => simp [dictInsert, dictHasKey]
  | cons q rest ih =>
    obtain ⟨k0, v0⟩ := q
    simp only [dictInsert]
    by_cases hk : k0 = k
    · rw [if_pos hk]
      simp [dictHasKey]
    · rw [if_neg hk]
      simp only [dictHasKey, List.any_cons]
      rw [dictHasKey] at ih
      simp [ih]

theorem dictHasKey_dictInsert_of (d : List (String × Symbol)) (k m : String)
    (v : Symbol) (h : dictHasKey d m = true) :
    dictHasKey (dictInsert d k v) m = true := by
  induction d with
  | nil => simp [dictHasKey] at h
  | cons q rest ih =>
    obtain ⟨k0, v0⟩ := q
    simp only [dictHasKey, List.any_cons, Bool.or_eq_true] at h
    simp only [dictInsert]
    by_cases hk : k0 = k
    · rw [if_pos hk]
      rcases h with h | h
      · simp only [dictHasKey, List.any_cons, Bool.or_eq_true]
        left
        simp at h ⊢
        rw [← hk]
        exact h
      · simp only [dictHasKey, List.any_cons, Bool.or_eq_true]
        right
        exact h
    · rw [if_neg hk]
      simp only [dictHasKey, List.any_cons, Bool.or_eq_true]
      rcases h with h | h
      · exact Or.inl h
      · exact Or.inr (ih h)

theorem Grammar.cleanup_fold_eq (eps : List String) :
    ∀ (rules acc : List (String × Symbol)),
      rules.foldl (fun acc r =>
        if eps.contains r.1 then acc
        else
          let newBody := Grammar.pruneSymbol eps r.2
          if newBody.isEpsilonNode then acc else acc ++ [(r.1, newBody)]) acc =
      acc ++ Grammar.cleanupKept eps rules := by
  intro rules
  induction rules with
  | nil => intro acc; simp [Grammar.cleanupKept]
  | cons r rest ih =>
    intro acc
    obtain ⟨n, b⟩ := r
    rw [List.foldl_cons]
    simp only [Grammar.cleanupKept]
    by_cases h1 : eps.contains n = true
    · rw [if_pos h1]
      rw [ih acc]
      rw [if_pos h1]
    · rw [if_neg h1, if_neg h1]
      by_cases h2 : (Grammar.pruneSymbol eps b).isEpsilonNode = true
      · simp only [if_pos h2]
        exact ih acc
      · simp only [if_neg h2]
        rw [ih (acc ++ [(n, Grammar.pruneSymbol eps b)])]
        simp

theorem Grammar.cleanup_rules_eq (g : Grammar) :
    (Grammar.cleanup g).rules =
      dictInsert
        (Grammar.cleanupKept (Grammar.epsilonRules g.rules) g.rules) "root"
        (Grammar.pruneSymbol (Grammar.epsilonRules g.rules)
          (Symbol.nonTerminal "root")) := by
  unfold Grammar.cleanup
  dsimp only
  rw [Grammar.cleanup_fold_eq]
  rw [List.nil_append]

theorem Grammar.mem_cleanupKept (eps : List String) :
    ∀ (rules : List (String × Symbol)) (p : String × Symbol),
      p ∈ Grammar.cleanupKept eps rules →
      ∃ b, (p.1, b) ∈ rules ∧ eps.contains p.1 = false ∧
        p.2 = Grammar.pruneSymbol eps b ∧ p.2.isEpsilonNode = false := by
  intro rules
  induction rules with
  | nil => intro p hp; simp [Grammar.cleanupKept] at hp
  | cons r rest ih =>
    intro p hp
    obtain ⟨n, b⟩ := r
    simp only [Grammar.cleanupKept] at hp
    by_cases h1 : eps.contains n = true
    · rw [if_pos h1] at hp
      obtain ⟨c, hc1, hc2, hc3, hc4⟩ := ih p hp
      exact ⟨c, by simp [hc1], hc2, hc3, hc4⟩
    · rw [if_neg h1] at hp
      by_cases h2 : (Grammar.pruneSymbol eps b).isEpsilonNode = true
      · simp only [if_pos h2] at hp
        obtain ⟨c, hc1, hc2, hc3, hc4⟩ := ih p hp
        exact ⟨c, by simp [hc1], hc2, hc3, hc4⟩
      · simp only [if_neg h2] at hp
        rcases List.mem_cons.mp hp with hp | hp
        · refine ⟨b, ?_, ?_, ?_, ?_⟩
          · rw [hp]; simp
          · rw [hp]; simpa using h1
          · rw [hp]
          · rw [hp]; simpa using h2
        · obtain ⟨c, hc1, hc2, hc3, hc4⟩ := ih p hp
          exact ⟨c, by simp [hc1], hc2, hc3, hc4⟩

theorem Grammar.hasKey_cleanupKept (eps : List String) :
    ∀ (rules : List (String × Symbol)) (n : String) (b : Symbol),
      (n, b) ∈ rules → eps.contains n = false →
      (Grammar.pruneSymbol eps b).isEpsilonNode = false →
      dictHasKey (Grammar.cleanupKept eps rules) n = true := by
  intro rules
  induction rules with
  | nil => intro n b h; simp at h
  | cons r rest ih =>
    intro n b hmem hc hne
    obtain ⟨n0, b0⟩ := r
    simp only [Grammar.cleanupKept]
    rcases List.mem_cons.mp hmem with hmem | hmem
    · obtain ⟨he1, he2⟩ := Prod.mk.injEq .. ▸ (by exact hmem : (n, b) = (n0, b0))
      subst he1
      subst he2
      rw [if_neg (by rw [hc]; simp)]
      simp only [if_neg (by rw [hne]; simp : ¬(Grammar.pruneSymbol eps b).isEpsilonNode = true)]
      simp [dictHasKey]
    · by_cases h1 : eps.contains n0 = true
      · rw [if_pos h1]
        exact ih n b hmem hc hne
      · rw [if_neg h1]
        by_cases h2 : (Grammar.pruneSymbol eps b0).isEpsilonNode = true
        · simp only [if_pos h2]
          exact ih n b hmem hc hne
        · simp only [if_neg h2]
          simp only [dictHasKey, List.any_cons, Bool.or_eq_true]
          exact Or.inr (by rw [← dictHasKey]; exact ih n b hmem hc hne)

theorem Grammar.cleanupKept_congr_id (eps : List String) :
    ∀ (rules : List (String × Symbol)),
      (∀ p ∈ rules, eps.contains p.1 = false ∧
        Grammar.pruneSymbol eps p.2 = p.2 ∧ p.2.isEpsilonNode = false) →
      Grammar.cleanupKept eps rules = rules := by
  intro rules
  induction rules with
  | nil => intro _; rfl
  | cons r rest ih =>
    intro h
    obtain ⟨n, b⟩ := r
    obtain ⟨h1, h2, h3⟩ := h (n, b) (by simp)
    simp only [Grammar.cleanupKept]
    rw [if_neg (by rw [h1]; simp)]
    simp only [h2]
    rw [if_neg (by rw [h3]; simp : ¬(b : Symbol).isEpsilonNode = true)]
    rw [ih (fun p hp => h p (by simp [hp]))]

theorem Grammar.cleanupKept_append (eps : List String)
    (a b : List (String × Symbol)) :
    Grammar.cleanupKept eps (a ++ b) =
      Grammar.cleanupKept eps a ++ Grammar.cleanupKept eps b := by
  induction a with
  | nil => simp [Grammar.cleanupKept]
  | cons r rest ih =>
    obtain ⟨n, s⟩ := r
    simp only [List.cons_append, Grammar.cleanupKept]
    by_cases h1 : eps.contains n = true
    · rw [if_pos h1, if_pos h1]
      exact ih
    · rw [if_neg h1, if_neg h1]
      by_cases h2 : (Grammar.pruneSymbol eps s).isEpsilonNode = true
      · simp only [if_pos h2]
        exact ih
      · simp only [if_neg h2]
        exact congrArg (fun l => (n, Grammar.pruneSymbol eps s) :: l) ih

theorem Grammar.eq_of_rules_eq (a b : Grammar) (h : a.rules = b.rules) :
    a = b := by
  cases a
  cases b
  simpa using h

theorem dictHasKey_exists (d : List (String × Symbol)) (k : String)
    (h : dictHasKey d k = true) : ∃ p ∈ d, p.1 = k := by
  simpa [dictHasKey, List.any_eq_true] using h

theorem Grammar.epsLoop_succ (rules : List (String × Symbol)) (fuel : Nat)
    (eps : List String) :
    Grammar.epsLoop rules (fuel + 1) eps =
      if Grammar.epsPass rules eps = eps then eps
      else Grammar.epsLoop rules fuel (Grammar.epsPass rules eps) := rfl

/-- **C8** (confirmed).  `cleanup()` is idempotent: a second call changes
neither the rule map nor the root (the root being the rule stored under
`"root"`); and on every grammar whose `NonTerminal`s all referenced defined
rules before the call, `cleanup()` leaves no `NonTerminal` referencing an
undefined name — every reference to a deleted epsilon rule has been replaced
by `Epsilon`, and the remaining references point to surviving rules (or to
the `root` entry `cleanup` rewrites). -/
theorem c8_cleanup_idempotent_and_reference_closed (g : Grammar) :
    Grammar.cleanup (Grammar.cleanup g) = Grammar.cleanup g ∧
    (g.refsClosed → (Grammar.cleanup g).refsClosed) := by
  have hR1 : (Grammar.cleanup g).rules =
      dictInsert (Grammar.cleanupKept (Grammar.epsilonRules g.rules) g.rules)
        "root"
        (Grammar.pruneSymbol (Grammar.epsilonRules g.rules)
          (Symbol.nonTerminal "root")) :=
    Grammar.cleanup_rules_eq g
  have hkeptFacts : ∀ p ∈ Grammar.cleanupKept (Grammar.epsilonRules g.rules) g.rules,
      (Grammar.epsilonRules g.rules).contains p.1 = false ∧
      Grammar.isSymbolEpsilon [] p.2 = false ∧
      Grammar.pruneSymbol [] p.2 = p.2 ∧
      (p.2 : Symbol).isEpsilonNode = false ∧
      (∀ n ∈ (p.2 : Symbol).refs,
        (Grammar.epsilonRules g.rules).contains n = false) := by
    intro p hp
    obtain ⟨b, hb1, hb2, hb3, hb4⟩ :=
      Grammar.mem_cleanupKept (Grammar.epsilonRules g.rules) g.rules p hp
    have hne : Grammar.pruneSymbol (Grammar.epsilonRules g.rules) b ≠ .epsilon := by
      rw [← hb3]
      exact (Symbol.isEpsilonNode_false_iff p.2).mp hb4
    refine ⟨hb2, ?_, ?_, hb4, ?_⟩
    · rw [hb3]
      exact Grammar.prune_not_epsilon_wrt_nil b _ hne
    · rw [hb3]
      exact Grammar.prune_nil_prune b _
    · intro n hn
      rw [hb3] at hn
      by_cases hcn : (Grammar.epsilonRules g.rules).contains n = true
      · exact absurd hn (Grammar.not_mem_refs_prune b _ n hcn)
      · simpa using hcn
  constructor
  · -- idempotence
    apply Grammar.eq_of_rules_eq
    have hR2 : (Grammar.cleanup (Grammar.cleanup g)).rules =
        dictInsert
          (Grammar.cleanupKept (Grammar.epsilonRules (Grammar.cleanup g).rules)
            (Grammar.cleanup g).rules) "root"
          (Grammar.pruneSymbol (Grammar.epsilonRules (Grammar.cleanup g).rules)
            (Symbol.nonTerminal "root")) :=
      Grammar.cleanup_rules_eq _
    by_cases hroot : (Grammar.epsilonRules g.rules).contains "root" = true
    · -- the root rule is itself epsilon: cleanup appends `root := Epsilon`
      have hv : Grammar.pruneSymbol (Grammar.epsilonRules g.rules)
          (Symbol.nonTerminal "root") = Symbol.epsilon := by
        simp only [Grammar.pruneSymbol]
        rw [if_pos hroot]
      have hkey : dictHasKey
          (Grammar.cleanupKept (Grammar.epsilonRules g.rules) g.rules) "root" =
          false := by
        by_cases h : dictHasKey
            (Grammar.cleanupKept (Grammar.epsilonRules g.rules) g.rules) "root" = true
        · obtain ⟨q, hq, hq1⟩ := dictHasKey_exists _ _ h
          have := (hkeptFacts q hq).1
          rw [hq1, hroot] at this
          exact absurd this (by simp)
        · simpa using h
      have hR1eq : (Grammar.cleanup g).rules =
          Grammar.cleanupKept (Grammar.epsilonRules g.rules) g.rules ++
            [("root", Symbol.epsilon)] := by
        rw [hR1, hv, dictInsert_append_of_not_mem _ _ _ hkey]
      have hkeptRootFacts : ∀ p ∈
          Grammar.cleanupKept (Grammar.epsilonRules g.rules) g.rules,
          (["root"] : List String).contains p.1 = false ∧
          Grammar.isSymbolEpsilon ["root"] p.2 = false ∧
          Grammar.pruneSymbol ["root"] p.2 = p.2 := by
        intro p hp
        obtain ⟨hc, hne0, hid, hneps, hrefs⟩ := hkeptFacts p hp
        have hrefs' : ∀ n ∈ (p.2 : Symbol).refs,
            (["root"] : List String).contains n = false := by
          intro n hn
          have hnr : n ≠ "root" := by
            intro heq
            rw [heq] at hn
            have := hrefs "root" hn
            rw [hroot] at this
            exact absurd this (by simp)
          rw [contains_false_iff]
          simp [hnr]
        refine ⟨?_, ?_, ?_⟩
        · have hnr : p.1 ≠ "root" := by
            intro heq
            rw [heq, hroot] at hc
            exact absurd hc (by simp)
          rw [contains_false_iff]
          simp [hnr]
        · rw [Grammar.isSymbolEpsilon_congr_nil p.2 ["root"] hrefs']
          exact hne0
        · rw [Grammar.prune_congr_nil p.2 ["root"] hrefs']
          exact hid
      have hpass1 : Grammar.epsPass (Grammar.cleanup g).rules [] = ["root"] := by
        rw [hR1eq]
        rw [show Grammar.epsPass
            (Grammar.cleanupKept (Grammar.epsilonRules g.rules) g.rules ++
              [("root", Symbol.epsilon)]) [] =
            List.foldl Grammar.epsPassStep []
              (Grammar.cleanupKept (Grammar.epsilonRules g.rules) g.rules ++
                [("root", Symbol.epsilon)]) from rfl]
        rw [List.foldl_append]
        rw [show List.foldl Grammar.epsPassStep []
            (Grammar.cleanupKept (Grammar.epsilonRules g.rules) g.rules) =
            Grammar.epsPass
              (Grammar.cleanupKept (Grammar.epsilonRules g.rules) g.rules) []
            from rfl]
        rw [Grammar.epsPass_keeps _ []
          (fun p hp => Or.inr (hkeptFacts p hp).2.1)]
        rfl
      have hpass2 : Grammar.epsPass (Grammar.cleanup g).rules ["root"] =
          ["root"] := by
        apply Grammar.epsPass_keeps
        intro p hp
        rw [hR1eq] at hp
        rcases List.mem_append.mp hp with hp | hp
        · exact Or.inr (hkeptRootFacts p hp).2.1
        · left
          simp at hp
          rw [hp]
          decide
      have hE2 : Grammar.epsilonRules (Grammar.cleanup g).rules = ["root"] := by
        unfold Grammar.epsilonRules
        rw [Grammar.epsLoop_succ, hpass1]
        rw [if_neg (by simp)]
        have hlen : (Grammar.cleanup g).rules.length =
            (Grammar.cleanupKept (Grammar.epsilonRules g.rules) g.rules).length
              + 1 := by
          rw [hR1eq]
          simp
        rw [hlen, Grammar.epsLoop_succ, hpass2]
        rw [if_pos rfl]
      have hkept2 : Grammar.cleanupKept ["root"] (Grammar.cleanup g).rules =
          Grammar.cleanupKept (Grammar.epsilonRules g.rules) g.rules := by
        rw [hR1eq, Grammar.cleanupKept_append]
        rw [Grammar.cleanupKept_congr_id ["root"] _
          (fun p hp => ⟨(hkeptRootFacts p hp).1, (hkeptRootFacts p hp).2.2,
            (hkeptFacts p hp).2.2.2.1⟩)]
        rw [show Grammar.cleanupKept ["root"] [("root", Symbol.epsilon)] = []
          from rfl]
        simp
      rw [hR2, hE2, hkept2]
      rw [show Grammar.pruneSymbol ["root"] (Symbol.nonTerminal "root") =
        Symbol.epsilon from rfl]
      rw [dictInsert_append_of_not_mem _ _ _ hkey]
      exact hR1eq.symm
    · -- the root rule survives: cleanup stores `root := NonTerminal("root")`
      have hv : Grammar.pruneSymbol (Grammar.epsilonRules g.rules)
          (Symbol.nonTerminal "root") = Symbol.nonTerminal "root" := by
        simp only [Grammar.pruneSymbol]
        rw [if_neg hroot]
      rw [hv] at hR1
      have hallR1 : ∀ p ∈ (Grammar.cleanup g).rules,
          Grammar.isSymbolEpsilon [] p.2 = false := by
        intro p hp
        rw [hR1] at hp
        rcases mem_dictInsert _ _ _ p hp with hp | hp
        · exact (hkeptFacts p hp).2.1
        · rw [hp]
          rfl
      have hE2 : Grammar.epsilonRules (Grammar.cleanup g).rules = [] := by
        unfold Grammar.epsilonRules
        rw [Grammar.epsLoop_succ,
          Grammar.epsPass_keeps _ [] (fun p hp => Or.inr (hallR1 p hp))]
        rw [if_pos rfl]
      have hkept2 : Grammar.cleanupKept [] (Grammar.cleanup g).rules =
          (Grammar.cleanup g).rules := by
        apply Grammar.cleanupKept_congr_id
        intro p hp
        rw [hR1] at hp
        rcases mem_dictInsert _ _ _ p hp with hp | hp
        · exact ⟨rfl, (hkeptFacts p hp).2.2.1, (hkeptFacts p hp).2.2.2.1⟩
        · rw [hp]
          exact ⟨rfl, rfl, rfl⟩
      rw [hR2, hE2, hkept2, hR1]
      rw [show Grammar.pruneSymbol [] (Symbol.nonTerminal "root") =
        Symbol.nonTerminal "root" from rfl]
      rw [dictInsert_idem]
  · -- reference closure
    intro hclosed p hp n hn
    rw [hR1] at hp
    rcases mem_dictInsert _ _ _ p hp with hp' | hp'
    · obtain ⟨b, hb1, hb2, hb3, hb4⟩ :=
        Grammar.mem_cleanupKept (Grammar.epsilonRules g.rules) g.rules p hp'
      rw [hb3] at hn
      have hnb : n ∈ (b : Symbol).refs := Grammar.refs_prune_subset b _ n hn
      have hcn : (Grammar.epsilonRules g.rules).contains n = false := by
        by_cases h : (Grammar.epsilonRules g.rules).contains n = true
        · exact absurd hn (Grammar.not_mem_refs_prune b _ n h)
        · simpa using h
      have hkeyg : dictHasKey g.rules n = true := hclosed (p.1, b) hb1 n hnb
      obtain ⟨q, hq, hq1⟩ := dictHasKey_exists g.rules n hkeyg
      have hcomp : Grammar.isSymbolEpsilon (Grammar.epsilonRules g.rules) q.2 =
          false :=
        Grammar.epsilonRules_complete g.rules q hq (by rw [hq1]; exact hcn)
      have hne : (Grammar.pruneSymbol (Grammar.epsilonRules g.rules)
          q.2).isEpsilonNode = false := by
        rw [Symbol.isEpsilonNode_false_iff]
        intro hcon
        have := Grammar.isSymbolEpsilon_of_prune_epsilon q.2 _ hcon
        rw [hcomp] at this
        exact absurd this (by simp)
      have hkeyk : dictHasKey
          (Grammar.cleanupKept (Grammar.epsilonRules g.rules) g.rules) n = true := by
        refine Grammar.hasKey_cleanupKept _ g.rules n q.2 ?_ hcn hne
        rw [← hq1]
        exact hq
      rw [hR1]
      exact dictHasKey_dictInsert_of _ _ _ _ hkeyk
    · rw [hp'] at hn
      by_cases hroot : (Grammar.epsilonRules g.rules).contains "root" = true
      · rw [show Grammar.pruneSymbol (Grammar.epsilonRules g.rules)
            (Symbol.nonTerminal "root") = Symbol.epsilon from by
          simp only [Grammar.pruneSymbol]; rw [if_pos hroot]] at hn
        simp [Symbol.refs] at hn
      · rw [show Grammar.pruneSymbol (Grammar.epsilonRules g.rules)
            (Symbol.nonTerminal "root") = Symbol.nonTerminal "root" from by
          simp only [Grammar.pruneSymbol]; rw [if_neg hroot]] at hn
        simp only [Symbol.refs, List.mem_singleton] at hn
        rw [hn, hR1]
        exact dictHasKey_dictInsert_self _ _ _

/-- **C8** (witness). -/
theorem c8_cleanup_idempotent_witness :
    Grammar.cleanup (Grammar.cleanup gDeadChoice) = Grammar.cleanup gDeadChoice ∧
    (Grammar.cleanup gDeadChoice).refsClosed :=
  ⟨(c8_cleanup_idempotent_and_reference_closed gDeadChoice).1,
   (c8_cleanup_idempotent_and_reference_closed gDeadChoice).2
     (show ∀ p ∈ gDeadChoice.rules, ∀ n ∈ (p.2 : Symbol).refs,
        dictHasKey gDeadChoice.rules n = true by decide)⟩

/-! ## Termination of the domain generator -/

theorem resolveArgsWith_cache_mono (resolve : Resolver)
    (hres : CacheMono resolve) :
    ∀ (args : List (String × PyType)) (st st' : GenState) out,
      resolveArgsWith resolve st args = .ok (st', out) →
      ∃ ext, st'.cache = st.cache ++ ext := by
  intro args
  induction args with
  | nil =>
    intro st st' out h
    simp only [resolveArgsWith] at h
    cases h
    exact ⟨[], by simp⟩
  | cons a rest ih =>
    intro st st' out h
    obtain ⟨k, ty⟩ := a
    simp only [resolveArgsWith] at h
    cases hr : resolve st ty with
    | error e =>
      rw [hr] at h
      simp at h
    | ok r =>
      obtain ⟨st1, sym⟩ := r
      rw [hr] at h
      dsimp only at h
      cases ha : resolveArgsWith resolve st1 rest with
      | error e =>
        rw [ha] at h
        simp at h
      | ok r2 =>
        obtain ⟨st2, out2⟩ := r2
        rw [ha] at h
        dsimp only at h
        have hst : st' = st2 := by
          injection h with hp
          exact (congrArg Prod.fst hp).symm
        obtain ⟨e1, he1⟩ := hres st ty st1 sym hr
        obtain ⟨e2, he2⟩ := ih st1 st2 out2 ha
        exact ⟨e1 ++ e2, by rw [hst, he2, he1, List.append_assoc]⟩

theorem classifyProducersWith_cache_mono (resolve : Resolver) (L : Language)
    (node : PyType) (hres : CacheMono resolve) :
    ∀ (prods : List Transition) (st : GenState) heads fluents exits st' out,
      classifyProducersWith resolve L node st prods heads fluents exits =
        .ok (st', out) →
      ∃ ext, st'.cache = st.cache ++ ext := by
  intro prods
  induction prods with
  | nil =>
    intro st heads fluents exits st' out h
    simp only [classifyProducersWith] at h
    cases h
    exact ⟨[], by simp⟩
  | cons tr rest ih =>
    intro st heads fluents exits st' out h
    simp only [classifyProducersWith] at h
    cases hr : resolveArgsWith resolve st tr.params with
    | error e =>
      rw [hr] at h
      simp at h
    | ok r =>
      obtain ⟨st1, argSymbols⟩ := r
      rw [hr] at h
      dsimp only at h
      obtain ⟨e1, he1⟩ := resolveArgsWith_cache_mono resolve hres tr.params st st1
        argSymbols hr
      by_cases hm : (tr.isMethod && tr.originType = some node) = true
      · rw [if_pos hm] at h
        by_cases hret : tr.returnType = node
        · rw [if_pos hret] at h
          obtain ⟨e2, he2⟩ := ih st1 _ _ _ st' out h
          exact ⟨e1 ++ e2, by rw [he2, he1, List.append_assoc]⟩
        · rw [if_neg hret] at h
          obtain ⟨e2, he2⟩ := ih st1 _ _ _ st' out h
          exact ⟨e1 ++ e2, by rw [he2, he1, List.append_assoc]⟩
      · rw [if_neg hm] at h
        cases hot : tr.originType with
        | some ot =>
          cases hmeth : tr.isMethod with
          | true =>
            rw [hot, hmeth] at h
            dsimp only at h
            cases hro : resolve st1 ot with
            | error e =>
              rw [hro] at h
              simp at h
            | ok r2 =>
              obtain ⟨st2, originSym⟩ := r2
              rw [hro] at h
              dsimp only at h
              obtain ⟨e2, he2⟩ := hres st1 ot st2 originSym hro
              obtain ⟨e3, he3⟩ := ih st2 _ _ _ st' out h
              exact ⟨e1 ++ (e2 ++ e3), by
                rw [he3, he2, he1, List.append_assoc, List.append_assoc]⟩
          | false =>
            rw [hot, hmeth] at h
            dsimp only at h
            obtain ⟨e2, he2⟩ := ih st1 _ _ _ st' out h
            exact ⟨e1 ++ e2, by rw [he2, he1, List.append_assoc]⟩
        | none =>
          rw [hot] at h
          cases hmeth : tr.isMethod with
          | true =>
            rw [hmeth] at h
            dsimp only at h
            obtain ⟨e2, he2⟩ := ih st1 _ _ _ st' out h
            exact ⟨e1 ++ e2, by rw [he2, he1, List.append_assoc]⟩
          | false =>
            rw [hmeth] at h
            dsimp only at h
            obtain ⟨e2, he2⟩ := ih st1 _ _ _ st' out h
            exact ⟨e1 ++ e2, by rw [he2, he1, List.append_assoc]⟩

theorem resolveExitsWith_cache_mono (resolve : Resolver)
    (hres : CacheMono resolve) :
    ∀ (exits : List (Symbol × PyType)) (st : GenState) acc st' out,
      resolveExitsWith resolve st exits acc = .ok (st', out) →
      ∃ ext, st'.cache = st.cache ++ ext := by
  intro exits
  induction exits with
  | nil =>
    intro st acc st' out h
    simp only [resolveExitsWith] at h
    cases h
    exact ⟨[], by simp⟩
  | cons e rest ih =>
    intro st acc st' out h
    obtain ⟨sym, target⟩ := e
    simp only [resolveExitsWith] at h
    cases hr : resolve st target with
    | error err =>
      rw [hr] at h
      simp at h
    | ok r =>
      obtain ⟨st1, s1⟩ := r
      rw [hr] at h
      dsimp only at h
      obtain ⟨e1, he1⟩ := hres st target st1 s1 hr
      obtain ⟨e2, he2⟩ := ih st1 _ st' out h
      exact ⟨e1 ++ e2, by rw [he2, he1, List.append_assoc]⟩

theorem buildRuleBodyWith_cache_mono (resolve : Resolver) (L : Language)
    (hres : CacheMono resolve) (st : GenState) (t : PyType)
    (producers : List Transition) (refName : String) (isPrim : Bool)
    (st' : GenState)
    (h : buildRuleBodyWith resolve L st t producers refName isPrim = .ok st') :
    ∃ ext, st'.cache = st.cache ++ ext := by
  unfold buildRuleBodyWith at h
  dsimp only at h
  cases hc : classifyProducersWith resolve L t st producers
      (if isPrim = true then [L.renderPrimitive t] else []) [] [] with
  | error e =>
    rw [hc] at h
    simp at h
  | ok r =>
    obtain ⟨st1, heads, fluents, exits⟩ := r
    rw [hc] at h
    dsimp only at h
    obtain ⟨e1, he1⟩ := classifyProducersWith_cache_mono resolve L t hres
      producers st _ _ _ st1 (heads, fluents, exits) hc
    cases ha : Grammar.anyStr (dictInsert st1.rules (refName ++ "_Chain")
        (Symbol.choice fluents)) (refName ++ "_Chain") with
    | error e =>
      rw [ha] at h
      simp at h
    | ok r2 =>
      obtain ⟨rules', chainRef⟩ := r2
      rw [ha] at h
      dsimp only at h
      cases hx : resolveExitsWith resolve
          { rules := dictInsert rules' refName
              ((Symbol.choice heads).add chainRef),
            cache := st1.cache } exits [] with
      | error e =>
        rw [hx] at h
        simp at h
      | ok r3 =>
        obtain ⟨st3, exitOptions⟩ := r3
        rw [hx] at h
        dsimp only at h
        have hst : st'.cache = st3.cache := by
          injection h with hp
          rw [← hp]
        obtain ⟨e2, he2⟩ := resolveExitsWith_cache_mono resolve hres exits
          { rules := dictInsert rules' refName
              ((Symbol.choice heads).add chainRef),
            cache := st1.cache } [] st3 exitOptions hx
        refine ⟨e1 ++ e2, ?_⟩
        rw [hst]
        simp only at he2
        rw [he2, he1, List.append_assoc]

theorem resolveType_cache_mono (L : Language) (dom : Domain) :
    ∀ fuel : Nat, CacheMono (resolveType L dom fuel) := by
  intro fuel
  induction fuel with
  | zero => intro st t st' s h; cases h
  | succ fuel ih =>
    intro st t st' s h
    simp only [resolveType] at h
    by_cases h1 : (isResolvePrimitive t && (dom t).isEmpty) = true
    · rw [if_pos h1] at h
      cases h
      exact ⟨[], by simp⟩
    · rw [if_neg h1] at h
      by_cases h2 : t ∈ st.cache
      · rw [if_pos h2] at h
        cases h
        exact ⟨[], by simp⟩
      · rw [if_neg h2] at h
        cases hb : buildRuleBodyWith (resolveType L dom fuel) L
            { st with cache := st.cache ++ [t] } t (dom t) t.typeName
            (isResolvePrimitive t) with
        | error e => rw [hb] at h; cases h
        | ok st2 =>
          rw [hb] at h
          cases h
          obtain ⟨e1, he1⟩ := buildRuleBodyWith_cache_mono
            (resolveType L dom fuel) L ih _ t (dom t) t.typeName
            (isResolvePrimitive t) st' hb
          exact ⟨[t] ++ e1, by simp only at he1; rw [he1]; simp⟩

theorem filter_sublist_of_imp {A : Type} (p q : A → Bool)
    (h : ∀ a, p a = true → q a = true) :
    ∀ l : List A, List.Sublist (l.filter p) (l.filter q) := by
  intro l
  induction l with
  | nil => simp
  | cons a l ih =>
    cases hp : p a with
    | true =>
      have hq := h a hp
      simp only [List.filter_cons, hp, hq, if_true]
      exact ih.cons₂ a
    | false =>
      cases hq : q a with
      | true =>
        simp only [List.filter_cons, hp, hq]
        exact ih.cons a
      | false =>
        simp only [List.filter_cons, hp, hq]
        exact ih

theorem missingCount_le_append (univ c ext : List PyType) :
    missingCount univ (c ++ ext) ≤ missingCount univ c := by
  unfold missingCount
  refine (filter_sublist_of_imp _ _ (fun a ha => ?_) univ).length_le
  simp only [decide_eq_true_eq, List.mem_append] at ha ⊢
  exact fun hc => ha (Or.inl hc)

theorem missingCount_lt_append_new (univ c : List PyType) (t : PyType)
    (htu : t ∈ univ) (htc : t ∉ c) :
    missingCount univ (c ++ [t]) < missingCount univ c := by
  unfold missingCount
  have hsub := filter_sublist_of_imp
    (fun u => decide (u ∉ c ++ [t])) (fun u => decide (u ∉ c))
    (fun a ha => by
      simp only [decide_eq_true_eq, List.mem_append] at ha ⊢
      exact fun hc => ha (Or.inl hc)) univ
  refine Nat.lt_of_le_of_ne hsub.length_le (fun heq => ?_)
  have hEq := hsub.eq_of_length heq
  have ht1 : t ∈ univ.filter (fun u => decide (u ∉ c)) := by
    simp only [List.mem_filter, decide_eq_true_eq]
    exact ⟨htu, htc⟩
  rw [← hEq] at ht1
  simp only [List.mem_filter, decide_eq_true_eq, List.mem_append] at ht1
  exact ht1.2 (Or.inr (List.mem_singleton.mpr rfl))

theorem nodup_append_singleton {A : Type} {l : List A} {a : A}
    (hl : l.Nodup) (ha : a ∉ l) : (l ++ [a]).Nodup := by
  rw [List.nodup_append]
  exact ⟨hl, List.nodup_singleton a, fun x hx hx' =>
    ha ((List.mem_singleton.mp hx') ▸ hx)⟩

theorem Grammar.someRule_not_fuelOut (rules : List (String × Symbol))
    (symbol : Symbol) (sep : Option Symbol) (name : Option String) :
    Grammar.someRule rules symbol sep name ≠ .error GenError.fuelOut := by
  intro h
  unfold Grammar.someRule at h
  dsimp only at h
  split at h
  · injection h with he
    exact GenError.noConfusion he
  · exact Except.noConfusion h

theorem Grammar.anyStr_not_fuelOut (rules : List (String × Symbol))
    (s : String) : Grammar.anyStr rules s ≠ .error GenError.fuelOut := by
  intro h
  unfold Grammar.anyStr at h
  cases hs : Grammar.someStr rules s with
  | error e =>
    rw [hs] at h
    dsimp only at h
    injection h with he
    exact Grammar.someRule_not_fuelOut rules (Symbol.terminal s false)
      none none (he ▸ hs)
  | ok r =>
    obtain ⟨rules2, ref⟩ := r
    rw [hs] at h
    dsimp only at h
    exact Except.noConfusion h

theorem resolveArgsWith_no_fuelOut (univ : List PyType) (n : Nat)
    (resolve : Resolver) (hmono : CacheMono resolve)
    (hsafe : ∀ st t, t ∈ univ → missingCount univ st.cache ≤ n →
      resolve st t ≠ .error .fuelOut) :
    ∀ (args : List (String × PyType)) (st : GenState),
      (∀ p ∈ args, p.2 ∈ univ) → missingCount univ st.cache ≤ n →
      resolveArgsWith resolve st args ≠ .error .fuelOut := by
  intro args
  induction args with
  | nil =>
    intro st _ _ h
    simp only [resolveArgsWith] at h
    exact Except.noConfusion h
  | cons a rest ih =>
    intro st hargs hb h
    obtain ⟨k, ty⟩ := a
    simp only [resolveArgsWith] at h
    cases hr : resolve st ty with
    | error e =>
      rw [hr] at h
      dsimp only at h
      injection h with he
      exact hsafe st ty (hargs (k, ty) (List.mem_cons_self _ _)) hb (he ▸ hr)
    | ok r =>
      obtain ⟨st1, sym⟩ := r
      rw [hr] at h
      dsimp only at h
      obtain ⟨e1, he1⟩ := hmono st ty st1 sym hr
      have hb1 : missingCount univ st1.cache ≤ n := by
        rw [he1]
        exact le_trans (missingCount_le_append univ st.cache e1) hb
      cases ha : resolveArgsWith resolve st1 rest with
      | error e =>
        rw [ha] at h
        dsimp only at h
        injection h with he
        exact ih st1 (fun p hp => hargs p (List.mem_cons_of_mem _ hp)) hb1
          (he ▸ ha)
      | ok r2 =>
        obtain ⟨st2, out2⟩ := r2
        rw [ha] at h
        dsimp only at h
        exact Except.noConfusion h

theorem classifyProducersWith_no_fuelOut (univ : List PyType) (n : Nat)
    (resolve : Resolver) (L : Language) (node : PyType)
    (hmono : CacheMono resolve)
    (hsafe : ∀ st t, t ∈ univ → missingCount univ st.cache ≤ n →
      resolve st t ≠ .error .fuelOut) :
    ∀ (prods : List Transition) (st : GenState) heads fluents exits,
      (∀ tr ∈ prods, (∀ p ∈ tr.params, p.2 ∈ univ) ∧
        (∀ ot ∈ tr.originType.toList, ot ∈ univ)) →
      missingCount univ st.cache ≤ n →
      classifyProducersWith resolve L node st prods heads fluents exits ≠
        .error .fuelOut := by
  intro prods
  induction prods with
  | nil =>
    intro st heads fluents exits _ _ h
    simp only [classifyProducersWith] at h
    exact Except.noConfusion h
  | cons tr rest ih =>
    intro st heads fluents exits htr hb h
    simp only [classifyProducersWith] at h
    cases hr : resolveArgsWith resolve st tr.params with
    | error e =>
      rw [hr] at h
      dsimp only at h
      injection h with he
      exact resolveArgsWith_no_fuelOut univ n resolve hmono hsafe tr.params st
        (htr tr (List.mem_cons_self _ _)).1 hb (he ▸ hr)
    | ok r =>
      obtain ⟨st1, argSymbols⟩ := r
      rw [hr] at h
      dsimp only at h
      obtain ⟨e1, he1⟩ := resolveArgsWith_cache_mono resolve hmono tr.params st
        st1 argSymbols hr
      have hb1 : missingCount univ st1.cache ≤ n := by
        rw [he1]
        exact le_trans (missingCount_le_append univ st.cache e1) hb
      have htr' := fun t ht => htr t (List.mem_cons_of_mem _ ht)
      by_cases hm : (tr.isMethod && tr.originType = some node) = true
      · rw [if_pos hm] at h
        by_cases hret : tr.returnType = node
        · rw [if_pos hret] at h
          exact ih st1 _ _ _ htr' hb1 h
        · rw [if_neg hret] at h
          exact ih st1 _ _ _ htr' hb1 h
      · rw [if_neg hm] at h
        cases hot : tr.originType with
        | some ot =>
          cases hmeth : tr.isMethod with
          | true =>
            rw [hot, hmeth] at h
            dsimp only at h
            cases hro : resolve st1 ot with
            | error e =>
              rw [hro] at h
              dsimp only at h
              injection h with he
              refine hsafe st1 ot ?_ hb1 (he ▸ hro)
              refine (htr tr (List.mem_cons_self _ _)).2 ot ?_
              rw [hot]
              exact List.mem_singleton.mpr rfl
            | ok r2 =>
              obtain ⟨st2, originSym⟩ := r2
              rw [hro] at h
              dsimp only at h
              obtain ⟨e2, he2⟩ := hmono st1 ot st2 originSym hro
              have hb2 : missingCount univ st2.cache ≤ n := by
                rw [he2]
                exact le_trans (missingCount_le_append univ st1.cache e2) hb1
              exact ih st2 _ _ _ htr' hb2 h
          | false =>
            rw [hot, hmeth] at h
            dsimp only at h
            exact ih st1 _ _ _ htr' hb1 h
        | none =>
          rw [hot] at h
          cases hmeth : tr.isMethod with
          | true =>
            rw [hmeth] at h
            dsimp only at h
            exact ih st1 _ _ _ htr' hb1 h
          | false =>
            rw [hmeth] at h
            dsimp only at h
            exact ih st1 _ _ _ htr' hb1 h

theorem resolveExitsWith_no_fuelOut (univ : List PyType) (n : Nat)
    (resolve : Resolver) (hmono : CacheMono resolve)
    (hsafe : ∀ st t, t ∈ univ → missingCount univ st.cache ≤ n →
      resolve st t ≠ .error .fuelOut) :
    ∀ (exits : List (Symbol × PyType)) (st : GenState) acc,
      (∀ p ∈ exits, p.2 ∈ univ) → missingCount univ st.cache ≤ n →
      resolveExitsWith resolve st exits acc ≠ .error .fuelOut := by
  intro exits
  induction exits with
  | nil =>
    intro st acc _ _ h
    simp only [resolveExitsWith] at h
    exact Except.noConfusion h
  | cons e rest ih =>
    intro st acc hex hb h
    obtain ⟨sym, target⟩ := e
    simp only [resolveExitsWith] at h
    cases hr : resolve st target with
    | error err =>
      rw [hr] at h
      dsimp only at h
      injection h with he
      exact hsafe st target (hex (sym, target) (List.mem_cons_self _ _)) hb
        (he ▸ hr)
    | ok r =>
      obtain ⟨st1, s1⟩ := r
      rw [hr] at h
      dsimp only at h
      obtain ⟨e1, he1⟩ := hmono st target st1 s1 hr
      have hb1 : missingCount univ st1.cache ≤ n := by
        rw [he1]
        exact le_trans (missingCount_le_append univ st.cache e1) hb
      exact ih st1 _ (fun p hp => hex p (List.mem_cons_of_mem _ hp)) hb1 h

theorem classifyProducersWith_exits_mem (resolve : Resolver) (L : Language)
    (node : PyType) (univ : List PyType) :
    ∀ (prods : List Transition) (st : GenState) heads fluents exits st' out,
      (∀ tr ∈ prods, tr.returnType ∈ univ) →
      (∀ p ∈ exits, p.2 ∈ univ) →
      classifyProducersWith resolve L node st prods heads fluents exits =
        .ok (st', out) →
      ∀ p ∈ out.2.2, p.2 ∈ univ := by
  intro prods
  induction prods with
  | nil =>
    intro st heads fluents exits st' out _ hex h
    simp only [classifyProducersWith] at h
    cases h
    exact hex
  | cons tr rest ih =>
    intro st heads fluents exits st' out htr hex h
    simp only [classifyProducersWith] at h
    cases hr : resolveArgsWith resolve st tr.params with
    | error e =>
      rw [hr] at h
      dsimp only at h
      exact Except.noConfusion h
    | ok r =>
      obtain ⟨st1, argSymbols⟩ := r
      rw [hr] at h
      dsimp only at h
      have htr' := fun t ht => htr t (List.mem_cons_of_mem _ ht)
      by_cases hm : (tr.isMethod && tr.originType = some node) = true
      · rw [if_pos hm] at h
        by_cases hret : tr.returnType = node
        · rw [if_pos hret] at h
          exact ih st1 _ _ _ st' out htr' hex h
        · rw [if_neg hret] at h
          refine ih st1 _ _ _ st' out htr' (fun p hp => ?_) h
          rcases List.mem_append.mp hp with hin | hin
          · exact hex p hin
          · rw [List.mem_singleton.mp hin]
            exact htr tr (List.mem_cons_self _ _)
      · rw [if_neg hm] at h
        cases hot : tr.originType with
        | some ot =>
          cases hmeth : tr.isMethod with
          | true =>
            rw [hot, hmeth] at h
            dsimp only at h
            cases hro : resolve st1 ot with
            | error e =>
              rw [hro] at h
              dsimp only at h
              exact Except.noConfusion h
            | ok r2 =>
              obtain ⟨st2, originSym⟩ := r2
              rw [hro] at h
              dsimp only at h
              exact ih st2 _ _ _ st' out htr' hex h
          | false =>
            rw [hot, hmeth] at h
            dsimp only at h
            exact ih st1 _ _ _ st' out htr' hex h
        | none =>
          rw [hot] at h
          cases hmeth : tr.isMethod with
          | true =>
            rw [hmeth] at h
            dsimp only at h
            exact ih st1 _ _ _ st' out htr' hex h
          | false =>
            rw [hmeth] at h
            dsimp only at h
            exact ih st1 _ _ _ st' out htr' hex h

theorem buildRuleBodyWith_no_fuelOut (univ : List PyType) (n : Nat)
    (resolve : Resolver) (L : Language) (hmono : CacheMono resolve)
    (hsafe : ∀ st t, t ∈ univ → missingCount univ st.cache ≤ n →
      resolve st t ≠ .error .fuelOut)
    (st : GenState) (t : PyType) (producers : List Transition)
    (refName : String) (isPrim : Bool)
    (hprod : ∀ tr ∈ producers,
      (∀ p ∈ tr.params, p.2 ∈ univ) ∧
      (∀ ot ∈ tr.originType.toList, ot ∈ univ) ∧
      tr.returnType ∈ univ)
    (hb : missingCount univ st.cache ≤ n) :
    buildRuleBodyWith resolve L st t producers refName isPrim ≠
      .error .fuelOut := by
  intro h
  unfold buildRuleBodyWith at h
  dsimp only at h
  cases hc : classifyProducersWith resolve L t st producers
      (if isPrim = true then [L.renderPrimitive t] else []) [] [] with
  | error e =>
    rw [hc] at h
    dsimp only at h
    injection h with he
    exact classifyProducersWith_no_fuelOut univ n resolve L t hmono hsafe
      producers st _ _ _
      (fun tr htr => ⟨(hprod tr htr).1, (hprod tr htr).2.1⟩) hb (he ▸ hc)
  | ok r =>
    obtain ⟨st1, heads, fluents, exits⟩ := r
    rw [hc] at h
    dsimp only at h
    obtain ⟨e1, he1⟩ := classifyProducersWith_cache_mono resolve L t hmono
      producers st _ _ _ st1 (heads, fluents, exits) hc
    have hb1 : missingCount univ st1.cache ≤ n := by
      rw [he1]
      exact le_trans (missingCount_le_append univ st.cache e1) hb
    have hexits : ∀ p ∈ exits, p.2 ∈ univ :=
      classifyProducersWith_exits_mem resolve L t univ producers st _ _ _
        st1 (heads, fluents, exits) (fun tr htr => (hprod tr htr).2.2)
        (fun p hp => absurd hp (List.not_mem_nil p)) hc
    cases ha : Grammar.anyStr (dictInsert st1.rules (refName ++ "_Chain")
        (Symbol.choice fluents)) (refName ++ "_Chain") with
    | error e =>
      rw [ha] at h
      dsimp only at h
      injection h with he
      exact Grammar.anyStr_not_fuelOut _ _ (he ▸ ha)
    | ok r2 =>
      obtain ⟨rules2, chainRef⟩ := r2
      rw [ha] at h
      dsimp only at h
      cases hx : resolveExitsWith resolve
          { rules := dictInsert rules2 refName
              ((Symbol.choice heads).add chainRef),
            cache := st1.cache } exits [] with
      | error e =>
        rw [hx] at h
        dsimp only at h
        injection h with he
        exact resolveExitsWith_no_fuelOut univ n resolve hmono hsafe exits
          { rules := dictInsert rules2 refName
              ((Symbol.choice heads).add chainRef),
            cache := st1.cache } [] hexits hb1 (he ▸ hx)
      | ok r3 =>
        obtain ⟨st3, exitOptions⟩ := r3
        rw [hx] at h
        dsimp only at h
        exact Except.noConfusion h

theorem resolveType_no_fuelOut (L : Language) (dom : Domain)
    (univ : List PyType) (hdom : DomClosed univ dom) :
    ∀ (fuel : Nat) (st : GenState) (t : PyType), t ∈ univ →
      missingCount univ st.cache < fuel →
      resolveType L dom fuel st t ≠ .error .fuelOut := by
  intro fuel
  induction fuel with
  | zero =>
    intro st t _ hb
    exact absurd hb (Nat.not_lt_zero _)
  | succ fuel ih =>
    intro st t htu hb h
    simp only [resolveType] at h
    by_cases h1 : (isResolvePrimitive t && (dom t).isEmpty) = true
    · rw [if_pos h1] at h
      exact Except.noConfusion h
    · rw [if_neg h1] at h
      by_cases h2 : t ∈ st.cache
      · rw [if_pos h2] at h
        exact Except.noConfusion h
      · rw [if_neg h2] at h
        have hdec : missingCount univ (st.cache ++ [t]) <
            missingCount univ st.cache :=
          missingCount_lt_append_new univ st.cache t htu h2
        have hbound : missingCount univ (st.cache ++ [t]) < fuel := by
          omega
        have hsafe : ∀ st2 t2, t2 ∈ univ →
            missingCount univ st2.cache ≤ missingCount univ (st.cache ++ [t]) →
            resolveType L dom fuel st2 t2 ≠ .error .fuelOut := by
          intro st2 t2 ht2 hb2
          exact ih st2 t2 ht2 (lt_of_le_of_lt hb2 hbound)
        cases hbd : buildRuleBodyWith (resolveType L dom fuel) L
            { st with cache := st.cache ++ [t] } t (dom t) t.typeName
            (isResolvePrimitive t) with
        | error e =>
          rw [hbd] at h
          dsimp only at h
          injection h with he
          refine buildRuleBodyWith_no_fuelOut univ
            (missingCount univ (st.cache ++ [t])) (resolveType L dom fuel)
            L (resolveType_cache_mono L dom fuel) hsafe
            { st with cache := st.cache ++ [t] } t (dom t)
            t.typeName (isResolvePrimitive t)
            (fun tr htr => hdom t htu tr htr) (Nat.le_refl _) (he ▸ hbd)
        | ok st2 =>
          rw [hbd] at h
          dsimp only at h
          exact Except.noConfusion h

/-- **C5** (confirmed).  Grammar generation terminates on every finite,
cyclic or mutually-recursive domain, by the two mechanisms the claim names.
(1) The reflector's get-or-create is memoized by canonical type: for an
already-recorded type it returns the state unchanged (nothing enqueued), and
it preserves the invariant that the scan queue is duplicate-free and only
holds recorded keys — so each concrete class is enqueued at most once.
(2) The generator's `_resolve_type` inserts the memoized forward reference
into its cache *before* recursing: a type already in the cache resolves
immediately to its `NonTerminal` with no state change, and on any universe
`univ` closed under the domain's producer graph, fuel exceeding the number
of not-yet-cached types of `univ` is never exhausted — the Python
recursion, which this fuel bounds from above, terminates. -/
theorem c5_generation_terminates_and_memoizes (univ : List PyType)
    (L : Language) (dom : Domain) (hdom : DomClosed univ dom) :
    (∀ (st : ReflectorState) (t : PyType),
        t ∈ st.nodes.map Prod.fst →
        Reflector.getOrCreateNode st t = (st, t)) ∧
    (∀ (st : ReflectorState) (t : PyType),
        st.queue.Nodup → (∀ q ∈ st.queue, q ∈ st.nodes.map Prod.fst) →
        (st.nodes.map Prod.fst).Nodup →
        ((Reflector.getOrCreateNode st t).1.queue.Nodup ∧
         (∀ q ∈ (Reflector.getOrCreateNode st t).1.queue,
            q ∈ (Reflector.getOrCreateNode st t).1.nodes.map Prod.fst) ∧
         ((Reflector.getOrCreateNode st t).1.nodes.map Prod.fst).Nodup)) ∧
    (∀ (st : GenState) (t : PyType) (fuel : Nat),
        (isResolvePrimitive t && (dom t).isEmpty) = false → t ∈ st.cache →
        resolveType L dom (fuel + 1) st t =
          .ok (st, .nonTerminal t.typeName)) ∧
    (∀ (st : GenState) (t : PyType) (fuel : Nat),
        t ∈ univ → missingCount univ st.cache < fuel →
        resolveType L dom fuel st t ≠ .error .fuelOut) := by
  refine ⟨?_, ?_, ?_, ?_⟩
  · intro st t hmem
    unfold Reflector.getOrCreateNode
    dsimp only
    rw [if_pos hmem]
  · intro st t hq hsub hk
    by_cases hmem : t ∈ st.nodes.map Prod.fst
    · have hform : Reflector.getOrCreateNode st t = (st, t) := by
        unfold Reflector.getOrCreateNode
        dsimp only
        rw [if_pos hmem]
      rw [hform]
      exact ⟨hq, hsub, hk⟩
    · have hkeys : ((st.nodes ++
          [(t, { pyType := t, name := t.typeName,
                 producers := [] : TypeNode })]).map Prod.fst) =
          st.nodes.map Prod.fst ++ [t] := by
        rw [List.map_append, List.map_cons, List.map_nil]
      by_cases hcls : t.isClass = true ∧ t ∉ [PyType.str, PyType.int,
          PyType.float, PyType.bool, PyType.list, PyType.dict]
      · have hform : Reflector.getOrCreateNode st t =
            ({ nodes := st.nodes ++
                [(t, { pyType := t, name := t.typeName, producers := [] })],
               queue := st.queue ++ [t] }, t) := by
          unfold Reflector.getOrCreateNode
          dsimp only
          rw [if_neg hmem, if_pos hcls]
        rw [hform]
        dsimp only
        rw [hkeys]
        have htq : t ∉ st.queue := fun ht => hmem (hsub t ht)
        refine ⟨nodup_append_singleton hq htq, ?_,
          nodup_append_singleton hk hmem⟩
        intro q hqm
        rcases List.mem_append.mp hqm with hin | hin
        · exact List.mem_append.mpr (Or.inl (hsub q hin))
        · exact List.mem_append.mpr (Or.inr hin)
      · have hform : Reflector.getOrCreateNode st t =
            ({ nodes := st.nodes ++
                [(t, { pyType := t, name := t.typeName, producers := [] })],
               queue := st.queue }, t) := by
          unfold Reflector.getOrCreateNode
          dsimp only
          rw [if_neg hmem, if_neg hcls]
        rw [hform]
        dsimp only
        rw [hkeys]
        refine ⟨hq, ?_, nodup_append_singleton hk hmem⟩
        intro q hqm
        exact List.mem_append.mpr (Or.inl (hsub q hqm))
  · intro st t fuel hprim hcache
    simp only [resolveType]
    rw [if_neg (by simp [hprim]), if_pos hcache]
  · intro st t fuel htu hbound
    exact resolveType_no_fuelOut L dom univ hdom fuel st t htu hbound

/-- Witness for the C5 theorem on the cyclic `DF` fixture domain (the fluent
`select` refers back to `DF` itself): its universe is closed, and resolution
of `DF` from the fresh generator state with fuel `4 > 3` missing types does
not exhaust the fuel. -/
theorem c5_generation_terminates_and_memoizes_witness :
    DomClosed univC5 domC1 ∧
    resolveType pythonLang domC1 4 genState0 (PyType.cls "DF") ≠
      .error GenError.fuelOut :=
  ⟨by unfold DomClosed; decide,
   (c5_generation_terminates_and_memoizes univC5 pythonLang domC1
      (by unfold DomClosed; decide)).2.2.2
     genState0 (PyType.cls "DF") 4 (by decide) (by decide)⟩

end Typus
